import Mathlib

/-!
# gernest/mad: result aggregation, reporting, path mapping and conflict resolution

A shallow embedding of

* `report/console/console.go`: `ident`, `printResult`, `Report`, `calcStats`,
  `ResponseHandler` with `New`, `Handle`, `Done`;
* `config/config.go`: `rename`, `Config.ResolvePackageConflict`, `Info.Desc`,
  `getOutputInfo`, `OutputInfo` and the discovery part of `Load`,

together with the parts of the Go standard library these functions call
(`strings.Split`, the UTF-8 decoding done by `range` over a string, and
`path/filepath` on a Unix system).

Conventions.

* Text that is only concatenated and printed (`console.go`) is a Lean `String`.
* Text that is indexed, sliced or split (`config.go`) is a Go string: a list of
  bytes, each byte a natural number below 256 (`GoString`).
* Every `fmt.Printf` call of `console.go` emits one `Line`; the constructor says
  which call site produced it and carries the arguments of the call.
* `len` of a slice and the counts added up by `calcStats` are natural numbers
  (a tree held in memory has fewer than `2^63` expectation records). A
  `time.Duration` is an `int64` number of nanoseconds: it is an integer here, and
  `+=` on it wraps around (`wrapInt64`).
-/

namespace Mad

/-! ## Result trees (package `mad`) -/

/-- Modelled from the spec: the passed-expectation record of package `mad`, whose
declaration is outside the sources at hand: a description and a duration
(`time.Duration`, nanoseconds). -/
structure PassedExpectation where
  Desc : String
  Duration : Int
  deriving DecidableEq, Repr

/-- Modelled from the spec: the failed-expectation record of package `mad`: a
description and the ordered list of failure messages. -/
structure FailedExpectation where
  Desc : String
  Messages : List String
  deriving DecidableEq, Repr

/-- Modelled from the spec: `mad.SpecResult`, one node of a result tree:
description, passed expectations, failed expectations, own elapsed duration and
the ordered children. The tree is finite and every child reference is present. -/
inductive SpecResult where
  | mk (Desc : String) (PassedExpectations : List PassedExpectation)
      (FailedExpectations : List FailedExpectation) (Duration : Int)
      (Children : List SpecResult)
  deriving Repr

namespace SpecResult

/-- Field `Desc`. -/
def Desc : SpecResult → String
  | mk d _ _ _ _ => d

/-- Field `PassedExpectations`. -/
def PassedExpectations : SpecResult → List PassedExpectation
  | mk _ ps _ _ _ => ps

/-- Field `FailedExpectations`. -/
def FailedExpectations : SpecResult → List FailedExpectation
  | mk _ _ fs _ _ => fs

/-- Field `Duration`. -/
def Duration : SpecResult → Int
  | mk _ _ _ d _ => d

/-- Field `Children`. -/
def Children : SpecResult → List SpecResult
  | mk _ _ _ _ cs => cs

end SpecResult

/-! ## `console.go` -/

/-- One `fmt.Printf` call of `console.go`, with the arguments it was given. -/
inductive Line where
  /-- Call `fmt.Printf("%s%s: \n", ident(level), ts.Desc)` -/
  | desc (indent : String) (d : String)
  /-- Call `fmt.Printf("%s✖ %s :\n", ident(level+1), v.Desc)` -/
  | failed (indent : String) (d : String)
  /-- Call `fmt.Printf("%s-- %s \n", ident(level+2), msg)` -/
  | message (indent : String) (msg : String)
  /-- Call `fmt.Printf("%s✔ %s  %v\n", ident(level+1), v.Desc, v.Duration)` -/
  | passed (indent : String) (d : String) (dur : Int)
  /-- Call `fmt.Printf("%s✔ %s \n", ident(0), ts.Desc)` -/
  | summary (indent : String) (d : String)
  /-- Call `fmt.Printf(" Passed :%d Failed:%d in %s\n", r.passed, r.failed, r.duration)` -/
  | stats (passed failed : Nat) (dur : Int)
  deriving DecidableEq, Repr

/-- The text a `Line` puts on stdout; `fmtDuration` is `time.Duration.String`. -/
def Line.render (fmtDuration : Int → String) : Line → String
  | .desc i d => i ++ d ++ ": \n"
  | .failed i d => i ++ "✖ " ++ d ++ " :\n"
  | .message i m => i ++ "-- " ++ m ++ " \n"
  | .passed i d dur => i ++ "✔ " ++ d ++ "  " ++ fmtDuration dur ++ "\n"
  | .summary i d => i ++ "✔ " ++ d ++ " \n"
  | .stats p f dur => " Passed :" ++ toString p ++ " Failed:" ++ toString f ++ " in "
      ++ fmtDuration dur ++ "\n"

/-- Function `ident`: `level` copies of two spaces. -/
def ident : Nat → String
  | 0 => ""
  | level + 1 => ident level ++ "  "

/-- The loop over `ts.FailedExpectations` in `printResult`. -/
def printFailed (level : Nat) : List FailedExpectation → List Line
  | [] => []
  | v :: vs =>
    Line.failed (ident (level + 1)) v.Desc
      :: (v.Messages.map (fun msg => Line.message (ident (level + 2)) msg)
          ++ printFailed level vs)

/-- The loop over `ts.PassedExpectations` in `printResult`. -/
def printPassed (level : Nat) : List PassedExpectation → List Line
  | [] => []
  | v :: vs => Line.passed (ident (level + 1)) v.Desc v.Duration :: printPassed level vs

mutual
/-- Function `printResult(ts, level)`: the lines written, in order. -/
def printResult : SpecResult → Nat → List Line
  | .mk d ps fs _ cs, level =>
    Line.desc (ident level) d
      :: (printFailed level fs ++ (printPassed level ps ++ printChildren cs level))
/-- The loop over `ts.Children` in `printResult`. -/
def printChildren : List SpecResult → Nat → List Line
  | [], _ => []
  | v :: vs, level => printResult v (level + 1) ++ printChildren vs level
end

/-- Function `Report(ts)`: the lines written. -/
def Report (ts : SpecResult) : List Line :=
  printResult ts 0

mutual
/-- Function `calcStats(ts)`: `(pass, fail)`. -/
def calcStats : SpecResult → Nat × Nat
  | .mk _ ps fs _ cs => calcStatsLoop cs ps.length fs.length
/-- The loop over `ts.Children` in `calcStats`, with the running `pass` and
`fail`. -/
def calcStatsLoop : List SpecResult → Nat → Nat → Nat × Nat
  | [], pass, fail => (pass, fail)
  | v :: vs, pass, fail =>
    calcStatsLoop vs (pass + (calcStats v).1) (fail + (calcStats v).2)
end

/-- The value an `int64` holds after an addition whose exact result is `x`: `x`
reduced modulo `2^64` into the range from `-2^63` to `2^63 - 1`. -/
def wrapInt64 (x : Int) : Int :=
  (x + 2 ^ 63) % 2 ^ 64 - 2 ^ 63

/-- Type `ResponseHandler`. -/
structure ResponseHandler where
  passed : Nat
  failed : Nat
  Verbose : Bool
  duration : Int
  deriving DecidableEq, Repr

/-- Function `New(verbose)`. -/
def New (verbose : Bool) : ResponseHandler :=
  { passed := 0, failed := 0, Verbose := verbose, duration := 0 }

/-- Method `Handle(ts)`: the handler afterwards and the lines written. -/
def ResponseHandler.Handle (r : ResponseHandler) (ts : SpecResult) :
    ResponseHandler × List Line :=
  let duration := wrapInt64 (r.duration + ts.Duration)
  let pass := (calcStats ts).1
  let fail := (calcStats ts).2
  let r1 : ResponseHandler :=
    { passed := r.passed + pass, failed := r.failed + fail, Verbose := r.Verbose,
      duration := duration }
  if r.Verbose then
    (r1, Report ts)
  else if fail > 0 then
    (r1, Report ts)
  else
    (r1, [Line.summary (ident 0) ts.Desc])

/-- Method `Done()`: the line written. -/
def ResponseHandler.Done (r : ResponseHandler) : List Line :=
  [Line.stats r.passed r.failed r.duration]

/-- The handler reached by calling `Handle` on each tree in turn. -/
def handleAll (r : ResponseHandler) : List SpecResult → ResponseHandler
  | [] => r
  | t :: ts => handleAll (r.Handle t).1 ts

/-! ### Vocabulary of the statements about result trees -/

mutual
/-- Every node of the tree, each once, parents before children. -/
def nodes : SpecResult → List SpecResult
  | .mk d ps fs dur cs => .mk d ps fs dur cs :: nodesList cs
/-- The nodes of a list of trees. -/
def nodesList : List SpecResult → List SpecResult
  | [] => []
  | v :: vs => nodes v ++ nodesList vs
end

/-- The sum, over every node, of the number of passed expectations. -/
def totalPassed (ts : SpecResult) : Nat :=
  ((nodes ts).map (fun n => n.PassedExpectations.length)).sum

/-- The sum, over every node, of the number of failed expectations. -/
def totalFailed (ts : SpecResult) : Nat :=
  ((nodes ts).map (fun n => n.FailedExpectations.length)).sum

/-! ## Go strings and `config.go` -/

deriving instance DecidableEq for Except

/-- A Go string: its bytes, each a natural number below 256. -/
abbrev GoString := List Nat

/-- Function `utf8.EncodeRune`, which is what `string(r)` does for a rune `r`. -/
def encodeRune (r : Nat) : GoString :=
  if r < 0x80 then [r]
  else if r < 0x800 then [0xC0 + r / 64, 0x80 + r % 64]
  else if (0xD800 ≤ r ∧ r ≤ 0xDFFF) ∨ 0x10FFFF < r then [0xEF, 0xBF, 0xBD]
  else if r < 0x10000 then [0xE0 + r / 4096, 0x80 + r / 64 % 64, 0x80 + r % 64]
  else [0xF0 + r / 262144, 0x80 + r / 4096 % 64, 0x80 + r / 64 % 64, 0x80 + r % 64]

/-- The bytes of a string literal. -/
def str (s : String) : GoString :=
  s.toList.flatMap (fun c => encodeRune c.toNat)

/-- The rune `utf8.RuneError`. -/
def RuneError : Nat := 0xFFFD

/-- Function `utf8.DecodeRuneInString`: the first rune of `s` and its width in
bytes; an invalid or truncated encoding gives `(RuneError, 1)`. -/
def decodeRune : GoString → Nat × Nat
  | [] => (RuneError, 0)
  | s0 :: rest =>
    if s0 < 0x80 then (s0, 1)
    else if s0 < 0xC2 then (RuneError, 1)
    else if s0 < 0xE0 then
      match rest with
      | s1 :: _ =>
        if s1 < 0x80 ∨ 0xBF < s1 then (RuneError, 1)
        else (s0 % 32 * 64 + s1 % 64, 2)
      | _ => (RuneError, 1)
    else if s0 < 0xF0 then
      match rest with
      | s1 :: s2 :: _ =>
        if s1 < (if s0 = 0xE0 then 0xA0 else 0x80) ∨ (if s0 = 0xED then 0x9F else 0xBF) < s1 then
          (RuneError, 1)
        else if s2 < 0x80 ∨ 0xBF < s2 then (RuneError, 1)
        else (s0 % 16 * 4096 + s1 % 64 * 64 + s2 % 64, 3)
      | _ => (RuneError, 1)
    else if s0 < 0xF5 then
      match rest with
      | s1 :: s2 :: s3 :: _ =>
        if s1 < (if s0 = 0xF0 then 0x90 else 0x80) ∨ (if s0 = 0xF4 then 0x8F else 0xBF) < s1 then
          (RuneError, 1)
        else if s2 < 0x80 ∨ 0xBF < s2 then (RuneError, 1)
        else if s3 < 0x80 ∨ 0xBF < s3 then (RuneError, 1)
        else (s0 % 8 * 262144 + s1 % 64 * 4096 + s2 % 64 * 64 + s3 % 64, 4)
      | _ => (RuneError, 1)
    else (RuneError, 1)

/-- Function `strings.Split(s, "/")`: the pieces of `s` between the slashes; one
more piece than there are slashes. -/
def Split : GoString → List GoString
  | [] => [[]]
  | c :: cs =>
    if c = 47 then [] :: Split cs
    else
      match Split cs with
      | [] => [[c]]
      | x :: xs => (c :: x) :: xs

/-- The decimal digits `%d` prints for a non-negative number. -/
def decimal (n : Nat) : GoString :=
  (Nat.toDigits 10 n).map Char.toNat

/-- The loop `for k, val := range limit` of `rename`: `k` is the byte offset of
the rune `val` in `limit`, `rest` the part of `limit` from offset `k` on. Reading
`last1[k]` out of range is `none`. -/
def renameLoop (pkg last1 : GoString) : Nat → Nat → GoString → Option GoString
  | 0, _, _ => none
  | fuel + 1, k, rest =>
    match rest with
    | [] => some []
    | _ :: _ =>
      match last1[k]? with
      | none => none
      | some e =>
        if (decodeRune rest).1 % 256 ≠ e then
          some (encodeRune (decodeRune rest).1 ++ pkg)
        else
          renameLoop pkg last1 fuel (k + (decodeRune rest).2) (rest.drop (decodeRune rest).2)

/-- Function `rename(pkg, a, b)`; `r` is the number `rand.Intn(10)` gives when it
is called. An index out of range is `none`. -/
def rename (r : Fin 10) (pkg a b : GoString) : Option GoString :=
  match (Split a)[(Split a).length - 1]?, (Split b)[(Split b).length - 1]? with
  | some last1, some last2 =>
    if last1 ≠ last2 then
      renameLoop pkg last1
        ((if last2.length > last1.length then last2.take last1.length else last2).length + 1) 0
        (if last2.length > last1.length then last2.take last1.length else last2)
    else
      some (pkg ++ decimal r.val)
  | _, _ => none

/-- The part of `build.Package` that is read: the declared package name. -/
structure BuildPackage where
  Name : GoString
  deriving DecidableEq, Repr

/-- Type `Info`; `Package` is a pointer, `none` when nil. -/
structure Info where
  OutputPath : GoString
  RelativePath : GoString
  Package : Option BuildPackage
  FixImport : GoString
  ImportPath : GoString
  deriving DecidableEq, Repr

/-- Method `Info.Desc(n)`; dereferencing a nil `Package` is `none`. -/
def Info.Desc (i : Info) (n : GoString) : Option GoString :=
  if i.FixImport ≠ [] then some (i.FixImport ++ str "." ++ n)
  else
    match i.Package with
    | none => none
    | some p => some (p.Name ++ str "." ++ n)

/-- The loop of `ResolvePackageConflict` over `c.TestInfo`: `m` is the map (the
entry found for a key is the one written last), `i` the position of the first
remaining unit, and `rnd i` the number `rand.Intn(10)` gives if the unit at
position `i` reaches that call. The result is the list as the loop leaves it;
`none` when the run panics. -/
def resolveLoop (rnd : Nat → Fin 10) :
    List Info → List (GoString × Info) → Nat → Option (List Info)
  | [], _, _ => some []
  | v :: vs, m, i =>
    match v.Package with
    | none => none
    | some p =>
      match m.lookup p.Name with
      | some n =>
        match rename (rnd i) p.Name n.ImportPath v.ImportPath with
        | none => none
        | some name =>
          (resolveLoop rnd vs ((name, { v with FixImport := name }) :: m) (i + 1)).map
            (fun out => { v with FixImport := name } :: out)
      | none =>
        (resolveLoop rnd vs ((p.Name, v) :: m) (i + 1)).map (fun out => v :: out)

/-- Method `Config.ResolvePackageConflict`, as a function of `c.TestInfo`. The
units of the list are separate records, as `Load` builds them. -/
def ResolvePackageConflict (rnd : Nat → Fin 10) (units : List Info) : Option (List Info) :=
  resolveLoop rnd units [] 0

/-! ## `path/filepath` on Unix -/

/-- The index `out.w` after the `..` case of `Clean` has backed up from index
`w`: `for out.w > dotdot && !os.IsPathSeparator(out.index(out.w)) { out.w-- }`. -/
def backtrackTo (out : GoString) (dotdot : Nat) : Nat → Nat
  | 0 => 0
  | w + 1 =>
    if w + 1 > dotdot ∧ out[w + 1]? ≠ some 47 then backtrackTo out dotdot w else w + 1

/-- The main loop of `filepath.Clean`: `path` is what is left to read (from index
`r` on), `out` the buffer written so far (`out.w` is its length), `dotdot` the
index where `..` must stop. -/
def cleanLoop (rooted : Bool) : Nat → GoString → GoString → Nat → GoString
  | 0, _, out, _ => out
  | fuel + 1, path, out, dotdot =>
    match path with
    | [] => out
    | c :: rest =>
      if c = 47 then
        cleanLoop rooted fuel rest out dotdot
      else if c = 46 ∧ (rest = [] ∨ rest.head? = some 47) then
        cleanLoop rooted fuel rest out dotdot
      else if c = 46 ∧ rest.head? = some 46
          ∧ (rest.tail = [] ∨ rest.tail.head? = some 47) then
        if out.length > dotdot then
          cleanLoop rooted fuel rest.tail
            (out.take (backtrackTo out dotdot (out.length - 1))) dotdot
        else if !rooted then
          cleanLoop rooted fuel rest.tail
            ((if out.length > 0 then out ++ [47] else out) ++ [46, 46])
            ((if out.length > 0 then out ++ [47] else out) ++ [46, 46]).length
        else
          cleanLoop rooted fuel rest.tail out dotdot
      else
        cleanLoop rooted fuel (path.dropWhile (fun x => x ≠ 47))
          ((if (rooted ∧ out.length ≠ 1) ∨ (!rooted ∧ out.length ≠ 0) then out ++ [47]
            else out) ++ path.takeWhile (fun x => x ≠ 47))
          dotdot

/-- Function `filepath.Clean` (no volume names, separator `/`). -/
def Clean (path : GoString) : GoString :=
  if path = [] then str "."
  else
    let rooted : Bool := path.head? = some 47
    let out :=
      if rooted then cleanLoop rooted path.length path.tail [47] 1
      else cleanLoop rooted path.length path [] 0
    if out.length = 0 then str "." else out

/-- Function `strings.Join(elems, "/")`. -/
def joinSlash : List GoString → GoString
  | [] => []
  | [e] => e
  | e :: es => e ++ 47 :: joinSlash es

/-- Function `filepath.Join`: the elements from the first non-empty one on, joined
by `/` and cleaned; the empty string when there is none. -/
def Join (elem : List GoString) : GoString :=
  match elem.dropWhile (fun e => e = []) with
  | [] => []
  | e :: es => Clean (joinSlash (e :: es))

/-- Function `filepath.Base`. -/
def Base (path : GoString) : GoString :=
  if path = [] then str "."
  else
    let stripped := (path.reverse.dropWhile (fun x => x = 47)).reverse
    let last := (stripped.reverse.takeWhile (fun x => x ≠ 47)).reverse
    if last = [] then str "/" else last

/-- The loop of `filepath.Rel` that walks `base` and `targ` element by element.
At the head of the loop `b0 = bi` and `t0 = ti`; `b` is `base[bi:]` and `t` is
`targ[ti:]`. The result is `(base[b0:bi], base[b0:], targ[t0:])` when the loop
is left. -/
def relLoop : Nat → GoString → GoString → GoString × GoString × GoString
  | 0, b, t => ([], b, t)
  | fuel + 1, b, t =>
    if b = [] ∨ t = [] then ([], b, t)
    else if t.takeWhile (fun x => x ≠ 47) ≠ b.takeWhile (fun x => x ≠ 47) then
      (b.takeWhile (fun x => x ≠ 47), b, t)
    else
      relLoop fuel ((b.dropWhile (fun x => x ≠ 47)).drop 1)
        ((t.dropWhile (fun x => x ≠ 47)).drop 1)

/-- The text of the error `filepath.Rel` returns. -/
def relError (basepath targpath : GoString) : GoString :=
  str "Rel: can't make " ++ targpath ++ str " relative to " ++ basepath

/-- Function `filepath.Rel(basepath, targpath)`. -/
def Rel (basepath targpath : GoString) : Except GoString GoString :=
  if Clean targpath = Clean basepath then .ok (str ".")
  else
    let base := if Clean basepath = str "." then [] else Clean basepath
    let targ := Clean targpath
    if (base.head? = some 47) ≠ (targ.head? = some 47) then
      .error (relError basepath targpath)
    else
      let st := relLoop (base.length + 1) base targ
      if st.1 = str ".." then .error (relError basepath targpath)
      else if st.2.1 ≠ [] then
        .ok (str ".." ++ (List.replicate (st.2.1.count 47) (str "/..")).flatten
          ++ (if st.2.2 ≠ [] then 47 :: st.2.2 else []))
      else .ok st.2.2

/-- The fields of `Config` that path mapping reads. -/
structure Config where
  TestDirName : GoString
  TestPath : GoString
  GeneratedTestPkg : GoString
  OutputPath : GoString
  deriving DecidableEq, Repr

/-- Function `getOutputInfo(cfg, testPath, packagename)`. -/
def getOutputInfo (cfg : Config) (testPath packagename : GoString) : Except GoString Info :=
  if cfg.TestPath = testPath then
    .ok { OutputPath := Join [cfg.OutputPath, packagename],
          ImportPath := cfg.GeneratedTestPkg,
          RelativePath := cfg.TestDirName,
          Package := none, FixImport := [] }
  else
    match Rel cfg.TestPath testPath with
    | .error err => .error err
    | .ok rel =>
      .ok { OutputPath := Join [cfg.OutputPath, cfg.TestDirName, rel],
            RelativePath := Join [Base cfg.TestPath, rel],
            ImportPath := cfg.GeneratedTestPkg ++ str "/" ++ rel,
            Package := none, FixImport := [] }

/-! ### Vocabulary of the statements about units -/

/-- The identifier under which a unit is imported and displayed, which is the
prefix `Desc` puts before the dot: `FixImport` when it is not empty, otherwise
`Package.Name`. -/
def Info.importName (i : Info) : Option GoString :=
  if i.FixImport ≠ [] then some i.FixImport else i.Package.map (fun p => p.Name)

/-- The final path segment of an import path: the last piece of
`strings.Split(a, "/")`. -/
def leaf (a : GoString) : GoString :=
  (Split a).getLastD []

/-- The declared package name of a unit, `Package.Name`; `none` when `Package` is
nil. -/
def Info.declName (i : Info) : Option GoString :=
  i.Package.map (fun p => p.Name)

/-- The two maps give, for every key, units with the same import path. -/
def SameImportPaths (m m' : List (GoString × Info)) : Prop :=
  ∀ q, (List.lookup q m).map (fun n => n.ImportPath)
    = (List.lookup q m').map (fun n => n.ImportPath)

/-- The positions of the units for which the loop of `ResolvePackageConflict`
reaches `rand.Intn` in `rename`: the units that collide with a unit whose final
path segment is the same as theirs. The arguments are those of `resolveLoop`. -/
def fallbackLoop (rnd : Nat → Fin 10) :
    List Info → List (GoString × Info) → Nat → List Nat
  | [], _, _ => []
  | v :: vs, m, i =>
    match v.Package with
    | none => []
    | some p =>
      match m.lookup p.Name with
      | some n =>
        match rename (rnd i) p.Name n.ImportPath v.ImportPath with
        | none => []
        | some name =>
          (if leaf n.ImportPath = leaf v.ImportPath then [i] else [])
            ++ fallbackLoop rnd vs ((name, { v with FixImport := name }) :: m) (i + 1)
      | none => fallbackLoop rnd vs ((p.Name, v) :: m) (i + 1)

/-- The positions of the units of the list that get their alias from the random
digit. -/
def fallbackAt (rnd : Nat → Fin 10) (units : List Info) : List Nat :=
  fallbackLoop rnd units [] 0

/-- The byte of `l2` at the first index, inside both `l1` and `l2`, at which the
two differ; `none` when they agree as far as the shorter one goes. -/
def firstDiff : GoString → GoString → Option Nat
  | x :: xs, y :: ys => if x = y then firstDiff xs ys else some y
  | _, _ => none

/-- The first unit of the list that bears the declared name of `w`. -/
def firstBearer (units : List Info) (w : Info) : Option Info :=
  units.find? (fun u => u.declName = w.declName)

/-- The byte at which the leaf of `w` first departs from the leaf of the first
bearer of its name; `none` for the first bearer itself. -/
def aliasByte (units : List Info) (w : Info) : Option Nat :=
  (firstBearer units w).bind (fun f => firstDiff (leaf f.ImportPath) (leaf w.ImportPath))

/-- What is asked of a unit that is not the first bearer of its name: its
leaf is ASCII, it departs from the leaf of the first bearer inside the shorter of
the two, and the byte at which it does so, put in front of the name, is not the
declared name of any unit of the list. -/
def LaterBearer (units : List Info) (w : Info) : Prop :=
  (∀ x ∈ leaf w.ImportPath, x < 128)
    ∧ (aliasByte units w).isSome
    ∧ ∀ c ∈ aliasByte units w, ∀ q ∈ w.declName, ∀ u ∈ units, u.declName ≠ some (c :: q)

instance (units : List Info) (w : Info) : Decidable (LaterBearer units w) := by
  unfold LaterBearer
  infer_instance

/-- What is asked of two units `v`, `w` of the list, `v` before `w`, when they
bear the same declared name: `w` is a later bearer as above, and the two do not
depart from the leaf of the first bearer with the same byte. -/
def Apart (units : List Info) (v w : Info) : Prop :=
  v.declName = w.declName → LaterBearer units w ∧ aliasByte units v ≠ aliasByte units w

instance (units : List Info) (v w : Info) : Decidable (Apart units v w) := by
  unfold Apart
  infer_instance

/-- The map gives, under every declared name of the list, the import path of
the first unit of `pre` that bears the name. -/
def SeenFirst (units pre : List Info) (m : List (GoString × Info)) : Prop :=
  ∀ w ∈ units, ∀ q, w.declName = some q →
    (List.lookup q m).map (fun n => n.ImportPath)
      = (pre.find? (fun u => u.declName = some q)).map (fun n => n.ImportPath)

/-- How the loop of `ResolvePackageConflict` leaves a unit `w` that it reaches
after the units `pre`: untouched, no unit of `pre` bearing its name, or with the
alias made of the byte `aliasByte units w` and its declared name. -/
def LoopOut (units pre : List Info) (w o : Info) : Prop :=
  (o = w ∧ ∀ u ∈ pre, u.declName ≠ w.declName)
    ∨ ∃ c q, w.declName = some q ∧ aliasByte units w = some c
        ∧ (∀ u ∈ units, u.declName ≠ some (c :: q)) ∧ o = { w with FixImport := c :: q }

/-- What one turn of the loop of `ResolvePackageConflict` does at position `i`
with the unit `u` and the map `m`: the unit `o` and the map `m1` it leaves. -/
def LoopStep (rnd : Nat → Fin 10) (i : Nat) (u : Info) (m : List (GoString × Info))
    (o : Info) (m1 : List (GoString × Info)) : Prop :=
  ∃ p, u.Package = some p
    ∧ ((List.lookup p.Name m = none ∧ o = u ∧ m1 = (p.Name, u) :: m)
      ∨ ∃ x a, List.lookup p.Name m = some x
          ∧ rename (rnd i) p.Name x.ImportPath u.ImportPath = some a
          ∧ o = { u with FixImport := a } ∧ m1 = (a, o) :: m)

/-- A unit as `Load` builds it, cut down to the two fields that
`ResolvePackageConflict` reads: the declared package name and the import path. -/
def mkUnit (pkg importPath : String) : Info :=
  { OutputPath := [], RelativePath := [], Package := some { Name := str pkg },
    FixImport := [], ImportPath := str importPath }

/-! ### Vocabulary of the statements about paths -/

/-- A path element as it stands in a clean path: not empty, without a slash,
and neither `.` nor `..`. -/
def NormalSeg (s : GoString) : Prop :=
  s ≠ [] ∧ 47 ∉ s ∧ s ≠ str "." ∧ s ≠ str ".."

instance (s : GoString) : Decidable (NormalSeg s) := by
  unfold NormalSeg
  infer_instance

/-- The absolute path with the elements `segs`: a slash, then the elements
joined by slashes. With normal elements these are the clean absolute paths. -/
def absPath (segs : List GoString) : GoString :=
  47 :: joinSlash segs

/-! ## Discovery in `Load` -/

/-- One call that `filepath.Walk` makes to the function `Load` hands to it: the
path, whether `info.IsDir()` holds, and the `err` argument (`none` for nil). -/
structure WalkEntry where
  path : GoString
  isDir : Bool
  err : Option GoString
  deriving DecidableEq, Repr

/-- Call `filepath.Walk(c.TestPath, ...)` of `Load`, with the calls Walk makes as
input: the function returns `err` when it is given one, which ends the walk and
is what Walk returns; otherwise a directory is appended to `testDirs`. The result
is `testDirs` and the value Walk returns. -/
def walkTestDirs : List WalkEntry → List GoString → List GoString × Option GoString
  | [], testDirs => (testDirs, none)
  | e :: es, testDirs =>
    match e.err with
    | some err => (testDirs, some err)
    | none =>
      if e.isDir then walkTestDirs es (testDirs ++ [e.path])
      else walkTestDirs es testDirs

/-- Function `OutputInfo(cfg, testPath)`; `importDir` is `build.ImportDir(·, 0)`. -/
def OutputInfo (importDir : GoString → Except GoString BuildPackage) (cfg : Config)
    (testPath : GoString) : Except GoString Info :=
  match importDir testPath with
  | .error err => .error err
  | .ok tsPkg =>
    match getOutputInfo cfg testPath tsPkg.Name with
    | .error err => .error err
    | .ok i => .ok { i with Package := some tsPkg }

/-- The loop of `Load` over `testDirs`, with `c.TestInfo` as it stands. -/
def loadLoop (importDir : GoString → Except GoString BuildPackage) (cfg : Config) :
    List GoString → List Info → List Info
  | [], testInfo => testInfo
  | v :: vs, testInfo =>
    match OutputInfo importDir cfg v with
    | .error _ => loadLoop importDir cfg vs testInfo
    | .ok i => loadLoop importDir cfg vs (testInfo ++ [i])

/-- What `%s` prints for a `[]string`: the elements between brackets, separated
by blanks. -/
def fmtStrings (xs : List GoString) : GoString :=
  str "[" ++ (xs.intersperse (str " ")).flatten ++ str "]"

/-- The error `Load` returns when `c.TestInfo` is empty. -/
def noTestPackages (testDirs : List GoString) : GoString :=
  str "couldn't find test packages in any on the directories :" ++ fmtStrings testDirs

/-- Function `Load` from the walk on: `cfg` is the config as built before the
walk (the flags are read, the root package is imported, `TestPath` exists and is
a directory), `walk` the calls `filepath.Walk` makes. The value Walk returns is
not looked at. The result is `c.TestInfo`, or the error returned. -/
def Load (importDir : GoString → Except GoString BuildPackage) (cfg : Config)
    (walk : List WalkEntry) : Except GoString (List Info) :=
  if (loadLoop importDir cfg (walkTestDirs walk []).1 []).length = 0 then
    .error (noTestPackages (walkTestDirs walk []).1)
  else
    .ok (loadLoop importDir cfg (walkTestDirs walk []).1 [])

/-- Whether `build.ImportDir` succeeds on the directory: it is a valid package. -/
def isPackage (importDir : GoString → Except GoString BuildPackage) (v : GoString) : Bool :=
  match importDir v with
  | .ok _ => true
  | .error _ => false

/-- A package-introspection result for the examples: the directories listed are
packages with the names given, every other directory has no Go files. -/
def importDirOf (pkgs : List (String × String)) (v : GoString) : Except GoString BuildPackage :=
  match pkgs.find? (fun e => str e.1 = v) with
  | some e => .ok { Name := str e.2 }
  | none => .error (str "no buildable Go source files in " ++ v)

/-- The config of the examples: test root `/root/tests`, generation directory
`/root/madness`. -/
def exampleConfig : Config :=
  { TestDirName := str "tests", TestPath := str "/root/tests",
    GeneratedTestPkg := str "github.com/gernest/mad/madness/tests",
    OutputPath := str "/root/madness" }

/-! ## Result trees with nil children -/

/-- Modelled from the spec: a `*mad.SpecResult` that may be nil, with children
that may be nil in turn. -/
inductive SpecResultPtr where
  | nil
  | node (Desc : String) (PassedExpectations : List PassedExpectation)
      (FailedExpectations : List FailedExpectation) (Duration : Int)
      (Children : List SpecResultPtr)
  deriving Repr

mutual
/-- Function `calcStats(ts)` on a pointer that may be nil: reading a field of a
nil `ts` panics, which is `none`. -/
def calcStatsPtr : SpecResultPtr → Option (Nat × Nat)
  | .nil => none
  | .node _ ps fs _ cs => calcStatsPtrLoop cs ps.length fs.length
/-- The loop over `ts.Children` in `calcStats`, on children that may be nil. -/
def calcStatsPtrLoop : List SpecResultPtr → Nat → Nat → Option (Nat × Nat)
  | [], pass, fail => some (pass, fail)
  | v :: vs, pass, fail =>
    match calcStatsPtr v with
    | none => none
    | some pf => calcStatsPtrLoop vs (pass + pf.1) (fail + pf.2)
end

mutual
/-- Function `printResult(ts, level)` on a pointer that may be nil: the lines
written, and whether the call returned (`false` when it panicked). -/
def printResultPtr : SpecResultPtr → Nat → List Line × Bool
  | .nil, _ => ([], false)
  | .node d ps fs _ cs, level =>
    ((Line.desc (ident level) d
        :: (printFailed level fs ++ (printPassed level ps ++ (printChildrenPtr cs level).1))),
      (printChildrenPtr cs level).2)
/-- The loop over `ts.Children` in `printResult`, on children that may be nil. -/
def printChildrenPtr : List SpecResultPtr → Nat → List Line × Bool
  | [], _ => ([], true)
  | v :: vs, level =>
    if (printResultPtr v (level + 1)).2 then
      ((printResultPtr v (level + 1)).1 ++ (printChildrenPtr vs level).1,
        (printChildrenPtr vs level).2)
    else
      ((printResultPtr v (level + 1)).1, false)
end

/-- Method `Handle(ts)` on a pointer that may be nil: the handler afterwards, or
`none` when the call panicked, and the lines written up to then. -/
def ResponseHandler.HandlePtr (r : ResponseHandler) (ts : SpecResultPtr) :
    Option ResponseHandler × List Line :=
  match ts with
  | .nil => (none, [])
  | .node d ps fs dur cs =>
    match calcStatsPtr (.node d ps fs dur cs) with
    | none => (none, [])
    | some pf =>
      if r.Verbose then
        (if (printResultPtr (.node d ps fs dur cs) 0).2 then
            some { passed := r.passed + pf.1, failed := r.failed + pf.2,
                   Verbose := r.Verbose, duration := wrapInt64 (r.duration + dur) }
          else none,
         (printResultPtr (.node d ps fs dur cs) 0).1)
      else if pf.2 > 0 then
        (if (printResultPtr (.node d ps fs dur cs) 0).2 then
            some { passed := r.passed + pf.1, failed := r.failed + pf.2,
                   Verbose := r.Verbose, duration := wrapInt64 (r.duration + dur) }
          else none,
         (printResultPtr (.node d ps fs dur cs) 0).1)
      else
        (some { passed := r.passed + pf.1, failed := r.failed + pf.2,
                Verbose := r.Verbose, duration := wrapInt64 (r.duration + dur) },
         [Line.summary (ident 0) d])

mutual
/-- Whether the pointer is nil or a nil child sits somewhere below it. -/
def hasNil : SpecResultPtr → Bool
  | .nil => true
  | .node _ _ _ _ cs => hasNilList cs
/-- Whether one of the trees has a nil in it. -/
def hasNilList : List SpecResultPtr → Bool
  | [] => false
  | v :: vs => hasNil v || hasNilList vs
end

mutual
/-- The tree as a tree of pointers, none of them nil. -/
def toPtr : SpecResult → SpecResultPtr
  | .mk d ps fs dur cs => .node d ps fs dur (toPtrList cs)
/-- The trees as trees of pointers. -/
def toPtrList : List SpecResult → List SpecResultPtr
  | [] => []
  | v :: vs => toPtr v :: toPtrList vs
end

/-! ### Vocabulary of the statements about the order of children and about lines -/

/-- The second tree is the first with the `Children` list of one node, at any
depth, put in another order. -/
inductive PermuteAt : SpecResult → SpecResult → Prop where
  | root (d : String) (ps : List PassedExpectation) (fs : List FailedExpectation)
      (dur : Int) (cs cs' : List SpecResult) (h : cs.Perm cs') :
      PermuteAt (.mk d ps fs dur cs) (.mk d ps fs dur cs')
  | child (d : String) (ps : List PassedExpectation) (fs : List FailedExpectation)
      (dur : Int) (l1 l2 : List SpecResult) (c c' : SpecResult) (h : PermuteAt c c') :
      PermuteAt (.mk d ps fs dur (l1 ++ c :: l2)) (.mk d ps fs dur (l1 ++ c' :: l2))

/-- The second tree is the first with the `Children` lists of any number of
nodes put in another order. -/
def Permuted (ts ts' : SpecResult) : Prop :=
  Relation.ReflTransGen PermuteAt ts ts'

/-- A string of `n` blanks. -/
def spaces (n : Nat) : String :=
  String.mk (List.replicate n ' ')

/-- Whether the line is a success-marked expectation line. -/
def Line.isPassed : Line → Bool
  | .passed _ _ _ => true
  | _ => false

/-- Whether the line is a failure-marked expectation line. -/
def Line.isFailed : Line → Bool
  | .failed _ _ => true
  | _ => false

/-- The number of failure messages in the whole tree. -/
def totalMessages (ts : SpecResult) : Nat :=
  ((nodes ts).map (fun n => (n.FailedExpectations.map (fun f => f.Messages.length)).sum)).sum

end Mad

/-! # Theorems -/

namespace Mad

/-! ## Aggregation -/

theorem sum_map_append {α : Type} (f : α → Nat) (xs ys : List α) :
    ((xs ++ ys).map f).sum = (xs.map f).sum + (ys.map f).sum := by
  simp

mutual
theorem calcStats_eq_nodes (f g : SpecResult → Nat)
    (hf : ∀ n, f n = n.PassedExpectations.length)
    (hg : ∀ n, g n = n.FailedExpectations.length) :
    ∀ ts : SpecResult, calcStats ts = (((nodes ts).map f).sum, ((nodes ts).map g).sum)
  | .mk d ps fs dur cs => by
    have h := calcStatsLoop_eq_nodes f g hf hg cs ps.length fs.length
    simp only [calcStats, nodes, List.map_cons, List.sum_cons, h, hf, hg,
      SpecResult.PassedExpectations, SpecResult.FailedExpectations]
theorem calcStatsLoop_eq_nodes (f g : SpecResult → Nat)
    (hf : ∀ n, f n = n.PassedExpectations.length)
    (hg : ∀ n, g n = n.FailedExpectations.length) :
    ∀ (cs : List SpecResult) (pass fail : Nat),
      calcStatsLoop cs pass fail
        = (pass + ((nodesList cs).map f).sum, fail + ((nodesList cs).map g).sum)
  | [], pass, fail => by simp [calcStatsLoop, nodesList]
  | v :: vs, pass, fail => by
    have h1 := calcStats_eq_nodes f g hf hg v
    have h2 := calcStatsLoop_eq_nodes f g hf hg vs
    simp only [calcStatsLoop, nodesList, h1, h2, List.map_append, List.sum_append,
      Nat.add_assoc]
end

theorem calcStats_eq_total (ts : SpecResult) :
    calcStats ts = (totalPassed ts, totalFailed ts) :=
  calcStats_eq_nodes _ _ (fun _ => rfl) (fun _ => rfl) ts

theorem calcStatsLoop_eq_sum (cs : List SpecResult) (pass fail : Nat) :
    calcStatsLoop cs pass fail
      = (pass + (cs.map (fun c => (calcStats c).1)).sum,
         fail + (cs.map (fun c => (calcStats c).2)).sum) := by
  induction cs generalizing pass fail with
  | nil => simp [calcStatsLoop]
  | cons v vs ih => simp [calcStatsLoop, ih, Nat.add_assoc]

/-- C1: `calcStats ts` is `(P, F)` where `P` is the sum over every node of the
tree, each counted once, of its number of passed expectations and `F` the same
for failed expectations; and `P` is the node's own count plus the sum of the
children's `P`, likewise `F`. -/
theorem calcStats_spec (ts : SpecResult) :
    calcStats ts = (totalPassed ts, totalFailed ts)
    ∧ (calcStats ts).1
        = ts.PassedExpectations.length + (ts.Children.map (fun c => (calcStats c).1)).sum
    ∧ (calcStats ts).2
        = ts.FailedExpectations.length + (ts.Children.map (fun c => (calcStats c).2)).sum := by
  refine ⟨calcStats_eq_total ts, ?_, ?_⟩
  · cases ts with
    | mk d ps fs dur cs =>
      simp [calcStats, calcStatsLoop_eq_sum, SpecResult.PassedExpectations,
        SpecResult.Children]
  · cases ts with
    | mk d ps fs dur cs =>
      simp [calcStats, calcStatsLoop_eq_sum, SpecResult.FailedExpectations,
        SpecResult.Children]

/-- The tree of the specification example: a root with 2 passed and 1 failed
expectation and one child with 3 passed and none failed. -/
theorem calcStats_example :
    calcStats (.mk "root" [⟨"a", 1⟩, ⟨"b", 2⟩] [⟨"c", ["m"]⟩] 10
      [.mk "child" [⟨"d", 1⟩, ⟨"e", 1⟩, ⟨"f", 1⟩] [] 5 []]) = (5, 1) := by
  decide

end Mad

namespace Mad

/-! ## The handler -/

theorem sum_eq_zero_iff_forall {α : Type} (f : α → Nat) (xs : List α) :
    (xs.map f).sum = 0 ↔ ∀ x ∈ xs, f x = 0 := by
  induction xs with
  | nil => simp
  | cons x xs ih => simp [ih]

theorem calcStats_fail_eq_zero_iff (ts : SpecResult) :
    (calcStats ts).2 = 0 ↔ ∀ n ∈ nodes ts, n.FailedExpectations = [] := by
  rw [calcStats_eq_total]
  simp only [totalFailed, sum_eq_zero_iff_forall, List.length_eq_zero]

/-- C2: a handler that is not verbose, given a tree none of whose nodes has a
failed expectation, writes exactly one line, the root's description marked as
passed; a verbose handler, or any handler given a tree with a failed expectation
at some node, writes exactly `Report ts`. -/
theorem Handle_output (r : ResponseHandler) (ts : SpecResult) :
    (r.Verbose = false → (∀ n ∈ nodes ts, n.FailedExpectations = []) →
        (r.Handle ts).2 = [Line.summary "" ts.Desc])
    ∧ (r.Verbose = true ∨ (∃ n ∈ nodes ts, n.FailedExpectations ≠ []) →
        (r.Handle ts).2 = Report ts) := by
  constructor
  · intro hv hn
    have h0 : (calcStats ts).2 = 0 := (calcStats_fail_eq_zero_iff ts).2 hn
    simp [ResponseHandler.Handle, hv, h0, ident]
  · intro h
    rcases h with hv | ⟨n, hn, hne⟩
    · simp [ResponseHandler.Handle, hv]
    · have hpos : (calcStats ts).2 > 0 := by
        rcases Nat.eq_zero_or_pos (calcStats ts).2 with h0 | h0
        · exact absurd ((calcStats_fail_eq_zero_iff ts).1 h0 n hn) hne
        · exact h0
      unfold ResponseHandler.Handle
      by_cases hv : r.Verbose = true
      · simp [hv]
      · simp [hv, hpos]

/-- A quiet handler on an all-passed two-node tree, and on a tree whose only
failure sits in a grandchild. -/
theorem Handle_output_witness :
    ((New false).Handle (.mk "root" [⟨"a", 1⟩] [] 7 [.mk "kid" [⟨"b", 2⟩] [] 3 []])).2
        = [Line.summary "" "root"]
    ∧ ((New false).Handle (.mk "root" [] [] 7 [.mk "kid" [] [] 3
          [.mk "leaf" [] [⟨"x", ["boom"]⟩] 1 []]])).2
        = Report (.mk "root" [] [] 7 [.mk "kid" [] [] 3
          [.mk "leaf" [] [⟨"x", ["boom"]⟩] 1 []]]) :=
  ⟨(Handle_output (New false) _).1 rfl (by decide),
   (Handle_output (New false) _).2 (Or.inr ⟨.mk "leaf" [] [⟨"x", ["boom"]⟩] 1 [],
      by simp [nodes, nodesList], by simp [SpecResult.FailedExpectations]⟩)⟩

theorem wrapInt64_add_wrapInt64 (a b : Int) :
    wrapInt64 (wrapInt64 a + b) = wrapInt64 (a + b) := by
  unfold wrapInt64
  omega

theorem wrapInt64_of_range (a : Int) (h1 : -2 ^ 63 ≤ a) (h2 : a < 2 ^ 63) :
    wrapInt64 a = a := by
  unfold wrapInt64
  omega

theorem wrapInt64_idem (a : Int) : wrapInt64 (wrapInt64 a) = wrapInt64 a := by
  unfold wrapInt64
  omega

theorem handleAll_fields (r : ResponseHandler) (ts : List SpecResult)
    (hr : wrapInt64 r.duration = r.duration) :
    (handleAll r ts).passed = r.passed + (ts.map totalPassed).sum
    ∧ (handleAll r ts).failed = r.failed + (ts.map totalFailed).sum
    ∧ (handleAll r ts).duration
        = wrapInt64 (r.duration + (ts.map SpecResult.Duration).sum)
    ∧ (handleAll r ts).Verbose = r.Verbose := by
  induction ts generalizing r with
  | nil => simp [handleAll, hr]
  | cons t ts ih =>
    have hstep : (r.Handle t).1 =
        { passed := r.passed + totalPassed t, failed := r.failed + totalFailed t,
          Verbose := r.Verbose, duration := wrapInt64 (r.duration + t.Duration) } := by
      unfold ResponseHandler.Handle
      simp only [calcStats_eq_total]
      split
      · rfl
      · split <;> rfl
    have hw : wrapInt64 (r.Handle t).1.duration = (r.Handle t).1.duration := by
      rw [hstep]
      exact wrapInt64_idem _
    obtain ⟨h1, h2, h3, h4⟩ := ih (r.Handle t).1 hw
    rw [hstep] at h1 h2 h3 h4
    simp only [handleAll, hstep, List.map_cons, List.sum_cons]
    refine ⟨?_, ?_, ?_, h4⟩
    · rw [h1, Nat.add_assoc]
    · rw [h2, Nat.add_assoc]
    · rw [h3, wrapInt64_add_wrapInt64, Int.add_assoc]

/-- C3 fails as stated: after two roots whose own `Duration` is
9223372036854775807, the largest `int64`, the handler holds the duration `-2`,
which is also what `Done` prints, and not the sum 18446744073709551614. -/
theorem handleAll_duration_wraps :
    (handleAll (New false)
        [.mk "a" [] [] 9223372036854775807 [], .mk "b" [] [] 9223372036854775807 []]).duration
      = -2
    ∧ (handleAll (New false)
        [.mk "a" [] [] 9223372036854775807 [], .mk "b" [] [] 9223372036854775807 []]).Done
      = [Line.stats 0 0 (-2)]
    ∧ ([SpecResult.mk "a" [] [] 9223372036854775807 [],
        SpecResult.mk "b" [] [] 9223372036854775807 []].map SpecResult.Duration).sum
      = 18446744073709551614 := by
  decide

/-- C3, amended: starting from `New v` and handling the trees `ts` in order, the
handler holds `passed` = the sum of the trees' aggregated passed totals, `failed`
= the sum of their aggregated failed totals, `duration` = the sum of the roots'
own `Duration` fields as `int64` addition gives it (no descendant's duration
enters), which is the sum itself when the sum fits into an `int64`, and
`Verbose = v`; `Done` prints exactly these three accumulated values. -/
theorem handleAll_New (v : Bool) (ts : List SpecResult) :
    (handleAll (New v) ts).passed = (ts.map (fun t => (calcStats t).1)).sum
    ∧ (handleAll (New v) ts).failed = (ts.map (fun t => (calcStats t).2)).sum
    ∧ (handleAll (New v) ts).duration = wrapInt64 (ts.map SpecResult.Duration).sum
    ∧ (-2 ^ 63 ≤ (ts.map SpecResult.Duration).sum ∧ (ts.map SpecResult.Duration).sum < 2 ^ 63 →
        (handleAll (New v) ts).duration = (ts.map SpecResult.Duration).sum)
    ∧ (handleAll (New v) ts).Verbose = v
    ∧ (handleAll (New v) ts).Done
        = [Line.stats (ts.map (fun t => (calcStats t).1)).sum
            (ts.map (fun t => (calcStats t).2)).sum
            (wrapInt64 (ts.map SpecResult.Duration).sum)] := by
  have h0 : wrapInt64 (New v).duration = (New v).duration :=
    wrapInt64_of_range 0 (by decide) (by decide)
  obtain ⟨h1, h2, h3, h4⟩ := handleAll_fields (New v) ts h0
  have e1 : (fun t => (calcStats t).1) = totalPassed := by
    funext t; rw [calcStats_eq_total]
  have e2 : (fun t => (calcStats t).2) = totalFailed := by
    funext t; rw [calcStats_eq_total]
  have n1 : (New v).passed = 0 := rfl
  have n2 : (New v).failed = 0 := rfl
  have n3 : (New v).duration = 0 := rfl
  have n4 : (New v).Verbose = v := rfl
  rw [n1, Nat.zero_add] at h1
  rw [n2, Nat.zero_add] at h2
  rw [n3, Int.zero_add] at h3
  rw [n4] at h4
  refine ⟨?_, ?_, h3, ?_, h4, ?_⟩
  · rw [h1, e1]
  · rw [h2, e2]
  · intro hrange
    rw [h3, wrapInt64_of_range _ hrange.1 hrange.2]
  · simp only [ResponseHandler.Done, h1, h2, h3, e1, e2]

/-- Two trees, the first with a child that took longer than its parent says:
only the roots' durations, 10 and 7, are added up. -/
theorem handleAll_New_witness :
    (handleAll (New false)
      [.mk "a" [⟨"x", 1⟩] [] 10 [.mk "kid" [⟨"y", 2⟩] [⟨"z", ["m"]⟩] 500 []],
       .mk "b" [] [] 7 []]).duration = 17 :=
  (handleAll_New false
    [.mk "a" [⟨"x", 1⟩] [] 10 [.mk "kid" [⟨"y", 2⟩] [⟨"z", ["m"]⟩] 500 []],
     .mk "b" [] [] 7 []]).2.2.2.1 (by decide)

/-- The handler after the two trees of the witness. -/
theorem handleAll_example :
    (handleAll (New false)
      [.mk "a" [⟨"x", 1⟩] [] 10 [.mk "kid" [⟨"y", 2⟩] [⟨"z", ["m"]⟩] 500 []],
       .mk "b" [] [] 7 []]) = { passed := 2, failed := 1, Verbose := false, duration := 17 } := by
  decide

end Mad
namespace Mad

/-! ## `rename` -/

theorem Split_ne_nil (a : GoString) : Split a ≠ [] := by
  induction a with
  | nil => simp [Split]
  | cons c cs ih =>
    unfold Split
    split
    · simp
    · split <;> simp

theorem Split_last (a : GoString) : (Split a)[(Split a).length - 1]? = some (leaf a) := by
  have h := Split_ne_nil a
  unfold leaf
  generalize Split a = l at h
  rw [← List.getLast?_eq_getElem?]
  cases l with
  | nil => exact absurd rfl h
  | cons x xs => simp [List.getLast?_eq_getLast, List.getLastD_eq_getLast?]

theorem decodeRune_width (x : Nat) (xs : GoString) :
    1 ≤ (decodeRune (x :: xs)).2 ∧ (decodeRune (x :: xs)).2 ≤ (x :: xs).length := by
  simp only [decodeRune]
  repeat' split
  all_goals simp

theorem decodeRune_ascii (x : Nat) (xs : GoString) (h : x < 128) :
    decodeRune (x :: xs) = (x, 1) := by
  simp [decodeRune, h]

end Mad
namespace Mad

theorem renameLoop_isSome (pkg last1 : GoString) :
    ∀ (fuel k : Nat) (rest : GoString), rest.length < fuel →
      k + rest.length ≤ last1.length → (renameLoop pkg last1 fuel k rest).isSome := by
  intro fuel
  induction fuel with
  | zero => intro k rest h; exact absurd h (Nat.not_lt_zero _)
  | succ fuel ih =>
    intro k rest hf hk
    cases rest with
    | nil => simp [renameLoop]
    | cons x xs =>
      have hw := decodeRune_width x xs
      have hlt : k < last1.length := by simp only [List.length_cons] at hk; omega
      simp only [renameLoop, List.getElem?_eq_getElem hlt]
      split
      · simp
      · apply ih
        · simp only [List.length_drop, List.length_cons] at *; omega
        · simp only [List.length_drop, List.length_cons] at *; omega

/-- The comparison window of `rename`: `last2`, cut to the length of `last1`
when it is longer. -/
theorem limit_length_le (last1 last2 : GoString) :
    (if last2.length > last1.length then last2.take last1.length else last2).length
      ≤ last1.length := by
  split
  · simp only [List.length_take]; omega
  · omega

theorem rename_isSome (r : Fin 10) (pkg a b : GoString) : (rename r pkg a b).isSome := by
  unfold rename
  rw [Split_last a, Split_last b]
  simp only
  split
  · apply renameLoop_isSome
    · omega
    · have := limit_length_le (leaf a) (leaf b); omega
  · simp

theorem renameLoop_first_diff (pkg last1 : GoString) :
    ∀ (rest : GoString) (fuel k j : Nat), rest.length < fuel → (∀ x ∈ rest, x < 128) →
      j < rest.length → (∀ i, i < j → rest[i]? = last1[k + i]?) →
      k + j < last1.length → rest[j]? ≠ last1[k + j]? →
      renameLoop pkg last1 fuel k rest = (rest[j]?).map (fun c => c :: pkg) := by
  intro rest
  induction rest with
  | nil => intro fuel k j _ _ hj; exact absurd hj (Nat.not_lt_zero _)
  | cons x xs ih =>
    intro fuel k j hf hascii hj heq hk hne
    cases fuel with
    | zero => exact absurd hf (Nat.not_lt_zero _)
    | succ fuel =>
      have hx : x < 128 := hascii x (List.mem_cons_self _ _)
      have hklt : k < last1.length := by omega
      simp only [renameLoop, decodeRune_ascii x xs hx, List.getElem?_eq_getElem hklt]
      have hmod : x % 256 = x := Nat.mod_eq_of_lt (by omega)
      cases j with
      | zero =>
        have hne0 : x ≠ last1[k] := by
          intro h
          apply hne
          simp [List.getElem?_eq_getElem hklt, h]
        simp [hmod, hne0, encodeRune, hx]
      | succ j =>
        have h0 := heq 0 (Nat.succ_pos j)
        simp only [List.getElem?_cons_zero, Nat.add_zero, List.getElem?_eq_getElem hklt,
          Option.some.injEq] at h0
        have hxe : ¬ (x % 256 ≠ last1[k]) := by rw [hmod]; exact not_not.mpr h0
        simp only [if_neg hxe, List.drop_succ_cons, List.drop_zero, List.getElem?_cons_succ]
        apply ih fuel (k + 1) j
        · simp only [List.length_cons] at hf; omega
        · intro y hy; exact hascii y (List.mem_cons_of_mem _ hy)
        · simp only [List.length_cons] at hj; omega
        · intro i hi
          have := heq (i + 1) (by omega)
          simp only [List.getElem?_cons_succ] at this
          rw [this]; congr 1; omega
        · omega
        · intro h
          apply hne
          simp only [List.getElem?_cons_succ]
          rw [h]; congr 1; omega

theorem rename_first_diff (r : Fin 10) (pkg a b : GoString) (j : Nat)
    (hb : ∀ x ∈ leaf b, x < 128) (h1 : j < (leaf a).length) (h2 : j < (leaf b).length)
    (heq : ∀ i, i < j → (leaf b)[i]? = (leaf a)[i]?) (hne : (leaf b)[j]? ≠ (leaf a)[j]?) :
    rename r pkg a b = ((leaf b)[j]?).map (fun c => c :: pkg) := by
  unfold rename
  rw [Split_last a, Split_last b]
  simp only
  have hne12 : leaf a ≠ leaf b := by
    intro h; rw [h] at hne; exact hne rfl
  rw [if_pos hne12]
  have hlim : ∀ i, i < (leaf a).length →
      (if (leaf b).length > (leaf a).length then (leaf b).take (leaf a).length
        else leaf b)[i]? = (leaf b)[i]? := by
    intro i hi
    split
    · rw [List.getElem?_take_of_lt hi]
    · rfl
  rw [renameLoop_first_diff pkg (leaf a) _ _ 0 j (Nat.lt_succ_self _)]
  · rw [hlim j h1]
  · intro x hx
    split at hx
    · exact hb x (List.mem_of_mem_take hx)
    · exact hb x hx
  · split
    · simp only [List.length_take]; omega
    · exact h2
  · intro i hi
    rw [hlim i (by omega), Nat.zero_add]
    exact heq i hi
  · omega
  · rw [hlim j h1, Nat.zero_add]; exact hne

theorem firstDiff_self (l : GoString) : firstDiff l l = none := by
  induction l with
  | nil => rfl
  | cons x xs ih => simp [firstDiff, ih]

/-- The byte `firstDiff` gives sits at the first index at which the two
differ. -/
theorem firstDiff_index : ∀ (l1 l2 : GoString) (c : Nat), firstDiff l1 l2 = some c →
    ∃ j, j < l1.length ∧ j < l2.length ∧ (∀ i, i < j → l2[i]? = l1[i]?)
      ∧ l2[j]? ≠ l1[j]? ∧ l2[j]? = some c := by
  intro l1
  induction l1 with
  | nil => intro l2 c h; simp [firstDiff] at h
  | cons x xs ih =>
    intro l2 c h
    cases l2 with
    | nil => simp [firstDiff] at h
    | cons y ys =>
      rw [firstDiff] at h
      by_cases hxy : x = y
      · rw [if_pos hxy] at h
        obtain ⟨j, h1, h2, h3, h4, h5⟩ := ih ys c h
        refine ⟨j + 1, by simp only [List.length_cons]; omega,
          by simp only [List.length_cons]; omega, ?_, ?_, ?_⟩
        · intro i hi
          cases i with
          | zero => simp [hxy]
          | succ i =>
            simp only [List.getElem?_cons_succ]
            exact h3 i (by omega)
        · simpa only [List.getElem?_cons_succ] using h4
        · simpa only [List.getElem?_cons_succ] using h5
      · rw [if_neg hxy] at h
        simp only [Option.some.injEq] at h
        refine ⟨0, by simp, by simp, ?_, ?_, ?_⟩
        · intro i hi; omega
        · simp only [List.getElem?_cons_zero, ne_eq, Option.some.injEq]
          exact fun h' => hxy h'.symm
        · simp [h]

theorem rename_of_firstDiff (r : Fin 10) (pkg a b : GoString) (c : Nat)
    (hb : ∀ x ∈ leaf b, x < 128) (h : firstDiff (leaf a) (leaf b) = some c) :
    rename r pkg a b = some (c :: pkg) := by
  obtain ⟨j, h1, h2, h3, h4, h5⟩ := firstDiff_index _ _ c h
  rw [rename_first_diff r pkg a b j hb h1 h2 h3 h4, h5]
  rfl

end Mad
namespace Mad

/-! ## `ResolvePackageConflict` -/

theorem lookup_cons_ne {k q : GoString} (v : Info) (m : List (GoString × Info)) (h : q ≠ k) :
    List.lookup q ((k, v) :: m) = List.lookup q m := by
  have hb : (q == k) = false := by simpa using h
  rw [List.lookup_cons, hb]

theorem lookup_cons_self (k : GoString) (v : Info) (m : List (GoString × Info)) :
    List.lookup k ((k, v) :: m) = some v := by
  rw [List.lookup_cons, beq_self_eq_true]

/-- With pairwise distinct declared names, none of them a key of the map, the
loop changes nothing. -/
theorem resolveLoop_distinct (rnd : Nat → Fin 10) :
    ∀ (vs : List Info) (m : List (GoString × Info)) (i : Nat),
      (∀ v ∈ vs, ∃ p, v.Package = some p ∧ List.lookup p.Name m = none) →
      (vs.map (fun v => v.Package.map (fun p => p.Name))).Nodup →
      resolveLoop rnd vs m i = some vs := by
  intro vs
  induction vs with
  | nil => intro m i _ _; rfl
  | cons v vs ih =>
    intro m i hp hnd
    obtain ⟨p, hvp, hlk⟩ := hp v (List.mem_cons_self _ _)
    rw [List.map_cons, List.nodup_cons] at hnd
    simp only [resolveLoop, hvp, hlk]
    rw [ih ((p.Name, v) :: m) (i + 1) ?_ hnd.2]
    · rfl
    · intro w hw
      obtain ⟨q, hwq, hlq⟩ := hp w (List.mem_cons_of_mem _ hw)
      refine ⟨q, hwq, ?_⟩
      rw [lookup_cons_ne v m ?_]
      · exact hlq
      · intro hqp
        apply hnd.1
        rw [List.mem_map]
        exact ⟨w, hw, by rw [hwq, hvp]; simp [hqp]⟩

theorem SameImportPaths.cons {m m' : List (GoString × Info)} (h : SameImportPaths m m')
    (k : GoString) (v : Info) : SameImportPaths ((k, v) :: m) ((k, v) :: m') := by
  intro q
  by_cases hq : q = k
  · subst hq; simp [List.lookup]
  · rw [lookup_cons_ne v m hq, lookup_cons_ne v m' hq]; exact h q

/-- Running the loop on its own result, with the same random outcomes, gives
that result again. -/
theorem resolveLoop_again (rnd : Nat → Fin 10) :
    ∀ (vs : List Info) (m m' : List (GoString × Info)) (i : Nat) (out : List Info),
      SameImportPaths m m' → resolveLoop rnd vs m i = some out →
      resolveLoop rnd out m' i = some out := by
  intro vs
  induction vs with
  | nil =>
    intro m m' i out _ h
    simp only [resolveLoop, Option.some.injEq] at h
    subst h; rfl
  | cons v vs ih =>
    intro m m' i out hm h
    obtain ⟨op, rp, pk, fi, ip⟩ := v
    cases pk with
    | none => simp [resolveLoop] at h
    | some p =>
      have hq := hm p.Name
      cases hlk : List.lookup p.Name m with
      | none =>
        rw [hlk] at hq
        have hlk' : List.lookup p.Name m' = none := by
          cases h' : List.lookup p.Name m' with
          | none => rfl
          | some n' => rw [h'] at hq; simp at hq
        simp only [resolveLoop, hlk, Option.map_eq_some'] at h
        obtain ⟨out', hout', rfl⟩ := h
        have := ih _ ((p.Name, ⟨op, rp, some p, fi, ip⟩) :: m') (i + 1) out'
          (hm.cons p.Name _) hout'
        simp only [resolveLoop, hlk', this, Option.map_some']
      | some n =>
        rw [hlk] at hq
        obtain ⟨n', hlk', hip⟩ : ∃ n', List.lookup p.Name m' = some n'
            ∧ n'.ImportPath = n.ImportPath := by
          cases h' : List.lookup p.Name m' with
          | none => rw [h'] at hq; simp at hq
          | some n' =>
            rw [h'] at hq
            simp only [Option.map_some', Option.some.injEq] at hq
            exact ⟨n', rfl, hq.symm⟩
        cases hrn : rename (rnd i) p.Name n.ImportPath ip with
        | none => simp [resolveLoop, hlk, hrn] at h
        | some name =>
          simp only [resolveLoop, hlk, hrn, Option.map_eq_some'] at h
          obtain ⟨out', hout', rfl⟩ := h
          have := ih _ ((name, ⟨op, rp, some p, name, ip⟩) :: m') (i + 1) out'
            (hm.cons name _) hout'
          simp only [resolveLoop, hlk', hip, hrn, this, Option.map_some']

/-- The loop panics only on a unit without a package. -/
theorem resolveLoop_isSome (rnd : Nat → Fin 10) :
    ∀ (vs : List Info) (m : List (GoString × Info)) (i : Nat),
      (∀ v ∈ vs, v.Package ≠ none) → (resolveLoop rnd vs m i).isSome := by
  intro vs
  induction vs with
  | nil => intro m i _; rfl
  | cons v vs ih =>
    intro m i hp
    have hv := hp v (List.mem_cons_self _ _)
    have hrest : ∀ w ∈ vs, w.Package ≠ none := fun w hw => hp w (List.mem_cons_of_mem _ hw)
    cases hvp : v.Package with
    | none => exact absurd hvp hv
    | some p =>
      cases hlk : List.lookup p.Name m with
      | none =>
        simp only [resolveLoop, hvp, hlk, Option.isSome_map']
        exact ih _ _ hrest
      | some n =>
        have hr := rename_isSome (rnd i) p.Name n.ImportPath v.ImportPath
        obtain ⟨name, hrn⟩ := Option.isSome_iff_exists.mp hr
        simp only [resolveLoop, hvp, hlk, hrn, Option.isSome_map']
        exact ih _ _ hrest

end Mad
namespace Mad

theorem lookup_cons_none {k q : GoString} {v : Info} {m : List (GoString × Info)}
    (h : List.lookup q ((k, v) :: m) = none) : q ≠ k ∧ List.lookup q m = none := by
  by_cases hq : q = k
  · subst hq; rw [lookup_cons_self] at h; exact absurd h (by simp)
  · rw [lookup_cons_ne v m hq] at h; exact ⟨hq, h⟩

theorem forall₂_mem_right {R : Info → Info → Prop} :
    ∀ {l1 l2 : List Info}, List.Forall₂ R l1 l2 → ∀ o ∈ l2, ∃ w ∈ l1, R w o := by
  intro l1 l2 h
  induction h with
  | nil => intro o ho; exact absurd ho (List.not_mem_nil _)
  | cons hr _ ih =>
    intro o ho
    rcases List.mem_cons.mp ho with rfl | ho
    · exact ⟨_, List.mem_cons_self _ _, hr⟩
    · obtain ⟨w, hw, hwr⟩ := ih o ho
      exact ⟨w, List.mem_cons_of_mem _ hw, hwr⟩

theorem importName_of_unset {v : Info} (h : v.FixImport = []) : v.importName = v.declName := by
  simp [Info.importName, Info.declName, h]

theorem importName_of_alias (v : Info) (c : Nat) (q : GoString) :
    Info.importName { v with FixImport := c :: q } = some (c :: q) := by
  simp [Info.importName]

/-- One turn of the loop of `ResolvePackageConflict`. -/
theorem resolveLoop_cons (rnd : Nat → Fin 10) (u : Info) (vs : List Info)
    (m : List (GoString × Info)) (i : Nat) (out : List Info)
    (h : resolveLoop rnd (u :: vs) m i = some out) :
    ∃ o outT m1, out = o :: outT ∧ resolveLoop rnd vs m1 (i + 1) = some outT
      ∧ LoopStep rnd i u m o m1 := by
  obtain ⟨op, rp, pk, fi, ip⟩ := u
  cases pk with
  | none => simp [resolveLoop] at h
  | some p =>
    cases hlk : List.lookup p.Name m with
    | none =>
      simp only [resolveLoop, hlk, Option.map_eq_some'] at h
      obtain ⟨outT, hT, rfl⟩ := h
      exact ⟨_, outT, _, rfl, hT, p, rfl, Or.inl ⟨hlk, rfl, rfl⟩⟩
    | some x =>
      cases hrn : rename (rnd i) p.Name x.ImportPath ip with
      | none => simp [resolveLoop, hlk, hrn] at h
      | some a =>
        simp only [resolveLoop, hlk, hrn, Option.map_eq_some'] at h
        obtain ⟨outT, hT, rfl⟩ := h
        exact ⟨_, outT, _, rfl, hT, p, rfl, Or.inr ⟨x, a, hlk, hrn, rfl, rfl⟩⟩

/-- The loop over a run of units `seg` followed by `cont`: the units it leaves
for `seg`, and the map with which it goes on to `cont`. A key `q` that is not
the alias of any unit left for `seg` keeps its entry over the run when it had
one, or when no unit of `seg` bears the name `q`. -/
theorem resolveLoop_segment (rnd : Nat → Fin 10) :
    ∀ (seg cont : List Info) (m : List (GoString × Info)) (i : Nat) (out : List Info),
      resolveLoop rnd (seg ++ cont) m i = some out →
      ∃ outSeg outCont m', out = outSeg ++ outCont ∧ outSeg.length = seg.length
        ∧ resolveLoop rnd cont m' (i + seg.length) = some outCont
        ∧ ∀ q, (∀ o ∈ outSeg, o.FixImport ≠ q) →
            ((List.lookup q m).isSome ∨ ∀ u ∈ seg, u.declName ≠ some q) →
            List.lookup q m' = List.lookup q m := by
  intro seg
  induction seg with
  | nil =>
    intro cont m i out h
    exact ⟨[], out, m, rfl, rfl, h, fun _ _ _ => rfl⟩
  | cons u seg ih =>
    intro cont m i out h
    rw [List.cons_append] at h
    obtain ⟨o, outT, m1, rfl, hT, p, hp, hstep⟩ := resolveLoop_cons rnd u _ m i out h
    obtain ⟨outSeg, outCont, m', rfl, hlen, hcont, hkeep⟩ := ih cont m1 (i + 1) outT hT
    refine ⟨o :: outSeg, outCont, m', rfl, by simp [hlen], ?_, ?_⟩
    · rw [List.length_cons, ← Nat.add_assoc, Nat.add_right_comm]
      exact hcont
    · intro q halias hreg
      have ho : o.FixImport ≠ q := halias o (List.mem_cons_self _ _)
      have hseg : ∀ o' ∈ outSeg, o'.FixImport ≠ q :=
        fun o' ho' => halias o' (List.mem_cons_of_mem _ ho')
      have h1 : List.lookup q m1 = List.lookup q m := by
        rcases hstep with ⟨hlk, _, rfl⟩ | ⟨x, a, _, _, rfl, rfl⟩
        · apply lookup_cons_ne
          intro hq
          subst hq
          rcases hreg with hs | hn
          · rw [hlk] at hs; simp at hs
          · exact hn u (List.mem_cons_self _ _) (by simp [Info.declName, hp])
        · apply lookup_cons_ne
          intro hq
          exact ho hq.symm
      rw [hkeep q hseg ?_, h1]
      rw [h1]
      rcases hreg with hs | hn
      · exact Or.inl hs
      · exact Or.inr (fun u' hu' => hn u' (List.mem_cons_of_mem _ hu'))

theorem resolveLoop_length (rnd : Nat → Fin 10) (vs : List Info)
    (m : List (GoString × Info)) (i : Nat) (out : List Info)
    (h : resolveLoop rnd vs m i = some out) : out.length = vs.length := by
  have h' : resolveLoop rnd (vs ++ []) m i = some out := by rw [List.append_nil]; exact h
  obtain ⟨outSeg, outCont, m', rfl, hlen, hcont, _⟩ := resolveLoop_segment rnd vs [] m i out h'
  simp only [resolveLoop, Option.some.injEq] at hcont
  rw [← hcont, List.append_nil, hlen]

end Mad
namespace Mad

theorem find?_append_singleton_of_none (pre : List Info) (v : Info) (P : Info → Bool)
    (h : pre.find? P = none) : (pre ++ [v]).find? P = [v].find? P := by
  rw [List.find?_append, h]
  rfl

theorem find?_append_of_some (pre post : List Info) (f : Info) (P : Info → Bool)
    (h : pre.find? P = some f) : (pre ++ post).find? P = some f := by
  rw [List.find?_append, h]
  rfl

theorem find?_append_singleton_of_not (pre : List Info) (v : Info) (P : Info → Bool)
    (h : P v = false) : (pre ++ [v]).find? P = pre.find? P := by
  rw [List.find?_append]
  have : [v].find? P = none := by simp [List.find?, h]
  rw [this]
  cases pre.find? P <;> rfl

theorem LoopOut.weaken {units pre : List Info} {v w o : Info}
    (h : LoopOut units (pre ++ [v]) w o) : LoopOut units pre w o := by
  rcases h with ⟨rfl, hl⟩ | h
  · exact Or.inl ⟨rfl, fun u hu => hl u (List.mem_append_left _ hu)⟩
  · exact Or.inr h

/-- The first unit of `pre` that bears a name is the first unit of the whole
list that bears it. -/
theorem aliasByte_of_find (units pre vs : List Info) (hsplit : units = pre ++ vs)
    (v f : Info) (q : GoString) (hq : v.declName = some q)
    (hf : pre.find? (fun u => u.declName = some q) = some f) :
    aliasByte units v = firstDiff (leaf f.ImportPath) (leaf v.ImportPath) := by
  unfold aliasByte firstBearer
  rw [hsplit, hq, find?_append_of_some pre vs f _ hf]
  rfl

theorem resolveLoop_unique (rnd : Nat → Fin 10) (units : List Info) :
    ∀ (vs pre : List Info) (m : List (GoString × Info)) (i : Nat),
      units = pre ++ vs →
      (∀ v ∈ vs, v.Package ≠ none ∧ v.FixImport = []) →
      SeenFirst units pre m →
      vs.Pairwise (Apart units) →
      (∀ w ∈ vs, (∃ u ∈ pre, u.declName = w.declName) → LaterBearer units w) →
      ∃ out, resolveLoop rnd vs m i = some out ∧ List.Forall₂ (LoopOut units pre) vs out
        ∧ (out.map Info.importName).Nodup := by
  intro vs
  induction vs with
  | nil => intro pre m i _ _ _ _ _; exact ⟨[], rfl, List.Forall₂.nil, List.nodup_nil⟩
  | cons v vs ih =>
    intro pre m i hsplit hpkg hseen hapart hfound
    obtain ⟨hvpkg, hvfix⟩ := hpkg v (List.mem_cons_self _ _)
    have hvmem : v ∈ units := by rw [hsplit]; simp
    have hsplit' : units = (pre ++ [v]) ++ vs := by rw [hsplit]; simp
    have hpkg' : ∀ w ∈ vs, w.Package ≠ none ∧ w.FixImport = [] :=
      fun w hw => hpkg w (List.mem_cons_of_mem _ hw)
    obtain ⟨hhead, htail⟩ := List.pairwise_cons.mp hapart
    have hfound' : ∀ w ∈ vs, (∃ u ∈ pre ++ [v], u.declName = w.declName) →
        LaterBearer units w := by
      intro w hw ⟨u, hu, hname⟩
      rcases List.mem_append.mp hu with hu | hu
      · exact hfound w (List.mem_cons_of_mem _ hw) ⟨u, hu, hname⟩
      · simp only [List.mem_singleton] at hu
        subst hu
        exact (hhead w hw hname).1
    obtain ⟨op, rp, pk, fi, ip⟩ := v
    simp only at hvfix
    subst hvfix
    cases pk with
    | none => exact absurd rfl hvpkg
    | some p =>
      have hq : (⟨op, rp, some p, [], ip⟩ : Info).declName = some p.Name := rfl
      have hs := hseen _ hvmem p.Name hq
      cases hlk : List.lookup p.Name m with
      | none =>
        rw [hlk] at hs
        have hnone : pre.find? (fun u => u.declName = some p.Name) = none := by
          cases hfd : pre.find? (fun u => u.declName = some p.Name) with
          | none => rfl
          | some f => rw [hfd] at hs; simp at hs
        have hseen' : SeenFirst units (pre ++ [⟨op, rp, some p, [], ip⟩])
            ((p.Name, ⟨op, rp, some p, [], ip⟩) :: m) := by
          intro w hw q hwq
          by_cases hqp : q = p.Name
          · subst hqp
            rw [lookup_cons_self, find?_append_singleton_of_none _ _ _ hnone]
            simp [List.find?, Info.declName]
          · rw [lookup_cons_ne _ _ hqp, find?_append_singleton_of_not _ _ _ ?_]
            · exact hseen w hw q hwq
            · simp only [Info.declName, Option.map_some', Option.some.injEq,
                decide_eq_false_iff_not]
              exact fun h => hqp h.symm
        obtain ⟨out', hrun, hrel, hnd⟩ := ih _ _ (i + 1) hsplit' hpkg' hseen' htail hfound'
        refine ⟨⟨op, rp, some p, [], ip⟩ :: out', ?_, ?_, ?_⟩
        · simp only [resolveLoop, hlk, hrun, Option.map_some']
        · refine List.Forall₂.cons (Or.inl ⟨rfl, ?_⟩) (hrel.imp fun _ _ h => h.weaken)
          intro u hu hname
          have := List.find?_eq_none.mp hnone u hu
          simp only [decide_eq_true_eq] at this
          exact this (by rw [hname]; rfl)
        · rw [List.map_cons, List.nodup_cons]
          refine ⟨?_, hnd⟩
          intro hmem
          obtain ⟨o, ho, hoe⟩ := List.mem_map.mp hmem
          obtain ⟨w, hw, hwo⟩ := forall₂_mem_right hrel o ho
          have hident : Info.importName ⟨op, rp, some p, [], ip⟩ = some p.Name := by
            simp [Info.importName]
          rw [hident] at hoe
          rcases hwo with ⟨rfl, hl⟩ | ⟨c, q, hwq, _, hno, rfl⟩
          · rw [importName_of_unset (hpkg' o hw).2] at hoe
            exact hl ⟨op, rp, some p, [], ip⟩ (by simp) (by rw [hoe]; rfl)
          · rw [importName_of_alias] at hoe
            exact hno _ hvmem (by rw [hq]; exact hoe.symm)
      | some n =>
        rw [hlk] at hs
        obtain ⟨f, hfd, hfip⟩ : ∃ f, pre.find? (fun u => u.declName = some p.Name) = some f
            ∧ f.ImportPath = n.ImportPath := by
          cases hfd : pre.find? (fun u => u.declName = some p.Name) with
          | none => rw [hfd] at hs; simp at hs
          | some f =>
            rw [hfd] at hs
            simp only [Option.map_some', Option.some.injEq] at hs
            exact ⟨f, rfl, hs.symm⟩
        have hfmem : f ∈ pre := List.mem_of_find?_eq_some hfd
        have hfname : f.declName = some p.Name := by
          have := List.find?_some hfd
          simpa using this
        have hbyte := aliasByte_of_find units pre _ hsplit _ f p.Name hq hfd
        obtain ⟨hascii, hsome, hno⟩ := hfound _ (List.mem_cons_self _ _)
          ⟨f, hfmem, by rw [hfname]; rfl⟩
        obtain ⟨c, hc⟩ := Option.isSome_iff_exists.mp hsome
        have hnoc : ∀ u ∈ units, u.declName ≠ some (c :: p.Name) :=
          hno c hc p.Name hq
        have hfd' : firstDiff (leaf n.ImportPath) (leaf ip) = some c := by
          rw [← hfip, ← hc, hbyte]
        have hrn := rename_of_firstDiff (rnd i) p.Name n.ImportPath ip c hascii hfd'
        have hseen' : SeenFirst units (pre ++ [⟨op, rp, some p, [], ip⟩])
            ((c :: p.Name, ⟨op, rp, some p, c :: p.Name, ip⟩) :: m) := by
          intro w hw q hwq
          have hqc : q ≠ c :: p.Name := fun h => hnoc w hw (by rw [hwq, h])
          rw [lookup_cons_ne _ _ hqc]
          by_cases hqp : q = p.Name
          · subst hqp
            rw [find?_append_of_some _ _ f _ hfd, ← hfd]
            exact hseen w hw _ hwq
          · rw [find?_append_singleton_of_not _ _ _ ?_]
            · exact hseen w hw q hwq
            · simp only [Info.declName, Option.map_some', Option.some.injEq,
                decide_eq_false_iff_not]
              exact fun h => hqp h.symm
        obtain ⟨out', hrun, hrel, hnd⟩ := ih _ _ (i + 1) hsplit' hpkg' hseen' htail hfound'
        refine ⟨⟨op, rp, some p, c :: p.Name, ip⟩ :: out', ?_, ?_, ?_⟩
        · simp only [resolveLoop, hlk, hrn, hrun, Option.map_some']
        · exact List.Forall₂.cons (Or.inr ⟨c, p.Name, hq, hc, hnoc, rfl⟩)
            (hrel.imp fun _ _ h => h.weaken)
        · rw [List.map_cons, List.nodup_cons]
          refine ⟨?_, hnd⟩
          intro hmem
          obtain ⟨o, ho, hoe⟩ := List.mem_map.mp hmem
          obtain ⟨w, hw, hwo⟩ := forall₂_mem_right hrel o ho
          have hident : Info.importName ⟨op, rp, some p, c :: p.Name, ip⟩
              = some (c :: p.Name) := by
            simp [Info.importName]
          rw [hident] at hoe
          rcases hwo with ⟨rfl, _⟩ | ⟨c', q, hwq, hwc, _, rfl⟩
          · rw [importName_of_unset (hpkg' o hw).2] at hoe
            exact hnoc o (by rw [hsplit']; exact List.mem_append_right _ hw) hoe
          · rw [importName_of_alias] at hoe
            simp only [Option.some.injEq, List.cons.injEq] at hoe
            obtain ⟨hcc, hqq⟩ := hoe
            subst hcc hqq
            exact (hhead w hw (by rw [hq, hwq])).2 (by rw [hc, hwc])

/-- C4, amended: on a unit list whose units all have a package and no alias yet,
in which every unit that is not the first bearer of its declared name has an
ASCII leaf that departs from the leaf of the first bearer inside the shorter of
the two, at a byte that no other later bearer of the name departs with and that,
put in front of the name, is not the declared name of a unit of the list,
`ResolvePackageConflict` returns a list of the same length in which the
identifiers under which the units are imported are pairwise different. -/
theorem ResolvePackageConflict_unique (rnd : Nat → Fin 10) (units : List Info)
    (hpkg : ∀ u ∈ units, u.Package ≠ none ∧ u.FixImport = [])
    (hapart : units.Pairwise (Apart units)) :
    ∃ out, ResolvePackageConflict rnd units = some out ∧ out.length = units.length
      ∧ (∀ o ∈ out, o.importName ≠ none) ∧ (out.map Info.importName).Nodup := by
  obtain ⟨out, hrun, hrel, hnd⟩ := resolveLoop_unique rnd units units [] [] 0 rfl hpkg
    (by intro w _ q _; rfl) hapart (by intro w _ ⟨u, hu, _⟩; exact absurd hu (List.not_mem_nil _))
  refine ⟨out, hrun, hrel.length_eq.symm, ?_, hnd⟩
  intro o ho
  obtain ⟨w, hw, hwo⟩ := forall₂_mem_right hrel o ho
  obtain ⟨hwp, hwf⟩ := hpkg w hw
  rcases hwo with ⟨rfl, _⟩ | ⟨c, q, _, _, _, rfl⟩
  · rw [importName_of_unset hwf]
    cases hp : o.Package with
    | none => exact absurd hp hwp
    | some p => simp [Info.declName, hp]
  · rw [importName_of_alias]; simp

/-- Three units named `foo` whose leaves `a`, `b`, `c` all start with another
byte, a unit named `bar` between them, and a unit named `cbar`. -/
theorem ResolvePackageConflict_unique_witness :
    ∃ out, ResolvePackageConflict (fun _ => 0)
        [mkUnit "foo" "x/a", mkUnit "foo" "x/b", mkUnit "bar" "x/b", mkUnit "foo" "x/c",
         mkUnit "cbar" "x/c"] = some out
      ∧ out.length = 5
      ∧ (∀ o ∈ out, o.importName ≠ none) ∧ (out.map Info.importName).Nodup :=
  ResolvePackageConflict_unique (fun _ => 0)
    [mkUnit "foo" "x/a", mkUnit "foo" "x/b", mkUnit "bar" "x/b", mkUnit "foo" "x/c",
     mkUnit "cbar" "x/c"]
    (by decide) (by decide)

/-- The list of the witness after the run. -/
theorem ResolvePackageConflict_unique_example :
    (ResolvePackageConflict (fun _ => 0)
        [mkUnit "foo" "x/a", mkUnit "foo" "x/b", mkUnit "bar" "x/b", mkUnit "foo" "x/c",
         mkUnit "cbar" "x/c"]).map (fun out => out.map Info.importName)
      = some [some (str "foo"), some (str "bfoo"), some (str "bar"), some (str "cfoo"),
          some (str "cbar")] := by
  decide

/-- C4 fails as stated: three units named `foo` whose leaves `ab`, `xc`, `xd` are
pairwise different; the second and the third are both imported as `xfoo`. -/
theorem ResolvePackageConflict_not_unique :
    [mkUnit "foo" "x/ab", mkUnit "foo" "x/xc", mkUnit "foo" "x/xd"].Pairwise
        (fun u v => u.declName = v.declName → leaf u.ImportPath ≠ leaf v.ImportPath)
    ∧ ∃ out, ResolvePackageConflict (fun _ => 0)
          [mkUnit "foo" "x/ab", mkUnit "foo" "x/xc", mkUnit "foo" "x/xd"] = some out
        ∧ out.map Info.importName = [some (str "foo"), some (str "xfoo"), some (str "xfoo")]
        ∧ ¬ (out.map Info.importName).Nodup :=
  ⟨by decide, _, rfl, by decide, by decide⟩

/-- An alias can be the declared name of another unit: the third unit is given
the alias `bfoo`, the name under which the first unit is imported. -/
theorem ResolvePackageConflict_alias_clash :
    (ResolvePackageConflict (fun _ => 0)
        [mkUnit "bfoo" "x/z", mkUnit "foo" "x/a", mkUnit "foo" "x/b"]).map
      (fun out => out.map Info.importName)
      = some [some (str "bfoo"), some (str "foo"), some (str "bfoo")] := by
  decide

/-- An alias that is set before the run is not looked at: the first unit comes
with the alias `2foo`, and the second unit is given the same one. -/
theorem ResolvePackageConflict_preset_alias :
    (ResolvePackageConflict (fun _ => 0)
        [{ mkUnit "foo" "x/a/pkg1" with FixImport := str "2foo" }, mkUnit "foo" "x/a/pkg2"]).map
      (fun out => out.map Info.importName)
      = some [some (str "2foo"), some (str "2foo")] := by
  decide

/-- Outside ASCII a difference inside the window can go unseen: the leaves `Ä`
and `Ã` differ in their second byte only, which `rename` never compares, and the
alias is empty. -/
theorem rename_non_ascii :
    rename 0 (str "foo") (str "x/Ä") (str "x/Ã") = some [] := by
  decide

end Mad
namespace Mad

/-- The example of the specification: two units named `foo` under `x/a/pkg1` and
`x/a/pkg2`; the second gets the alias `2foo` and the display names differ. -/
theorem ResolvePackageConflict_example :
    ResolvePackageConflict (fun _ => 0) [mkUnit "foo" "x/a/pkg1", mkUnit "foo" "x/a/pkg2"]
      = some [mkUnit "foo" "x/a/pkg1",
          { mkUnit "foo" "x/a/pkg2" with FixImport := str "2foo" }]
    ∧ ∀ n, (mkUnit "foo" "x/a/pkg1").Desc n
        ≠ ({ mkUnit "foo" "x/a/pkg2" with FixImport := str "2foo" } : Info).Desc n := by
  refine ⟨by decide, fun n => ?_⟩
  simp [Info.Desc, mkUnit, str, encodeRune]

/-- C5 fails on the code: two units named `foo` whose leaves `pkg` and `pkg1`
differ, the first being a prefix of the second. The loop of `rename` compares
the first three bytes only, finds no difference and returns the empty string:
the second unit has no alias after the run and both units have the same display
name for every `n`. -/
theorem ResolvePackageConflict_prefix_leaf :
    leaf (str "x/a/pkg") ≠ leaf (str "x/a/pkg1")
    ∧ rename 0 (str "foo") (str "x/a/pkg") (str "x/a/pkg1") = some []
    ∧ ResolvePackageConflict (fun _ => 0) [mkUnit "foo" "x/a/pkg", mkUnit "foo" "x/a/pkg1"]
        = some [mkUnit "foo" "x/a/pkg", mkUnit "foo" "x/a/pkg1"]
    ∧ ∀ n, (mkUnit "foo" "x/a/pkg").Desc n = (mkUnit "foo" "x/a/pkg1").Desc n :=
  ⟨by decide, by decide, by decide, fun _ => rfl⟩

/-- C6: on a unit list whose units all have a package, with pairwise distinct
declared names and no alias set, `ResolvePackageConflict` returns the list
unchanged: every alias is still unset. -/
theorem ResolvePackageConflict_distinct (rnd : Nat → Fin 10) (units : List Info)
    (hpkg : ∀ u ∈ units, u.Package ≠ none)
    (hnames : (units.map Info.declName).Nodup)
    (hfix : ∀ u ∈ units, u.FixImport = []) :
    ∃ out, ResolvePackageConflict rnd units = some out ∧ out = units
      ∧ ∀ o ∈ out, o.FixImport = [] := by
  refine ⟨units, ?_, rfl, hfix⟩
  apply resolveLoop_distinct rnd units [] 0 ?_ hnames
  intro v hv
  cases hp : v.Package with
  | none => exact absurd hp (hpkg v hv)
  | some p => exact ⟨p, rfl, rfl⟩

/-- Three units named `a`, `b` and `c`. -/
theorem ResolvePackageConflict_distinct_witness :
    ∃ out, ResolvePackageConflict (fun _ => 7)
        [mkUnit "a" "x/a", mkUnit "b" "x/a", mkUnit "c" "x/y/a"] = some out
      ∧ out = [mkUnit "a" "x/a", mkUnit "b" "x/a", mkUnit "c" "x/y/a"]
      ∧ ∀ o ∈ out, o.FixImport = [] :=
  ResolvePackageConflict_distinct (fun _ => 7)
    [mkUnit "a" "x/a", mkUnit "b" "x/a", mkUnit "c" "x/y/a"]
    (by decide) (by decide) (by decide)

/-- C7 fails as stated: two units named `foo` with the same leaf `pkg`. The first
run draws the digit 3 and gives the alias `foo3`; a second run that draws the
digit 5 renames the unit again, to `foo5`. -/
theorem ResolvePackageConflict_not_idempotent :
    ∃ out1 out2,
      ResolvePackageConflict (fun _ => 3) [mkUnit "foo" "x/a/pkg", mkUnit "foo" "x/b/pkg"]
        = some out1
      ∧ ResolvePackageConflict (fun _ => 5) out1 = some out2
      ∧ out1.map (fun u => u.FixImport) = [[], str "foo3"]
      ∧ out2.map (fun u => u.FixImport) = [[], str "foo5"]
      ∧ out2 ≠ out1 :=
  ⟨_, _, rfl, rfl, by decide, by decide, by decide⟩

theorem rename_of_ne_leaf (r r' : Fin 10) (pkg a b : GoString) (h : leaf a ≠ leaf b) :
    rename r pkg a b = rename r' pkg a b := by
  unfold rename
  rw [Split_last a, Split_last b]
  simp only [ne_eq, h, not_false_eq_true, if_true]

/-- Two random sources that give the same digit wherever a digit is drawn give
the same run. -/
theorem resolveLoop_congr (rnd rnd' : Nat → Fin 10) :
    ∀ (vs : List Info) (m : List (GoString × Info)) (i : Nat),
      (∀ k ∈ fallbackLoop rnd vs m i, rnd' k = rnd k) →
      resolveLoop rnd' vs m i = resolveLoop rnd vs m i := by
  intro vs
  induction vs with
  | nil => intro m i _; rfl
  | cons v vs ih =>
    intro m i h
    obtain ⟨op, rp, pk, fi, ip⟩ := v
    cases pk with
    | none => rfl
    | some p =>
      cases hlk : List.lookup p.Name m with
      | none =>
        simp only [fallbackLoop, hlk] at h
        simp only [resolveLoop, hlk]
        rw [ih _ _ h]
      | some n =>
        have hr := rename_isSome (rnd i) p.Name n.ImportPath ip
        obtain ⟨name, hrn⟩ := Option.isSome_iff_exists.mp hr
        simp only [fallbackLoop, hlk, hrn] at h
        have hrn' : rename (rnd' i) p.Name n.ImportPath ip = some name := by
          by_cases hl : leaf n.ImportPath = leaf ip
          · rw [h i (by simp [hl])]; exact hrn
          · rw [rename_of_ne_leaf (rnd' i) (rnd i) _ _ _ hl]; exact hrn
        simp only [resolveLoop, hlk, hrn, hrn']
        rw [ih _ _ (fun k hk => h k (List.mem_append_right _ hk))]

/-- C7, amended: on a unit list whose units all have a package,
`ResolvePackageConflict` returns a list, and running it again on that list
returns the same list, no field of any unit changed, provided the second run
draws the same digit as the first at every unit that got its alias from the
random digit in the first run. -/
theorem ResolvePackageConflict_idempotent (rnd rnd' : Nat → Fin 10) (units : List Info)
    (hpkg : ∀ u ∈ units, u.Package ≠ none)
    (hsame : ∀ k ∈ fallbackAt rnd units, rnd' k = rnd k) :
    ∃ out, ResolvePackageConflict rnd units = some out
      ∧ ResolvePackageConflict rnd' out = some out := by
  obtain ⟨out, hout⟩ := Option.isSome_iff_exists.mp (resolveLoop_isSome rnd units [] 0 hpkg)
  have hout' : resolveLoop rnd' units [] 0 = some out := by
    rw [resolveLoop_congr rnd rnd' units [] 0 hsame]; exact hout
  exact ⟨out, hout, resolveLoop_again rnd' units [] [] 0 out (fun _ => rfl) hout'⟩

/-- Three units named `foo`: the second has the leaf of the first and gets the
digit drawn at position 1, the third has another leaf. The second run draws the
same digit at position 1 and other digits elsewhere. -/
theorem ResolvePackageConflict_idempotent_witness :
    ∃ out, ResolvePackageConflict (fun k => if k = 1 then 3 else 0)
        [mkUnit "foo" "x/a/pkg", mkUnit "foo" "x/b/pkg", mkUnit "foo" "x/b/pkh"] = some out
      ∧ ResolvePackageConflict (fun k => if k = 1 then 3 else 5) out = some out :=
  ResolvePackageConflict_idempotent (fun k => if k = 1 then 3 else 0)
    (fun k => if k = 1 then 3 else 5)
    [mkUnit "foo" "x/a/pkg", mkUnit "foo" "x/b/pkg", mkUnit "foo" "x/b/pkh"] (by decide)
    (by decide)

/-- What a second run with another digit does to a list with two units that
drew the digit 3: the second unit goes from `foo3` to `foo5`; the third, named
`foo3`, was renamed against the second in the first run and is not looked at in
the second, where no unit is registered under `foo3`: it keeps `foo33`. -/
theorem ResolvePackageConflict_second_run_example :
    ((ResolvePackageConflict (fun _ => 3)
        [mkUnit "foo" "x/pkg", mkUnit "foo" "y/pkg", mkUnit "foo3" "z/pkg"]).map
      (fun out => out.map (fun u => u.FixImport)) = some [[], str "foo3", str "foo33"])
    ∧ (((ResolvePackageConflict (fun _ => 3)
        [mkUnit "foo" "x/pkg", mkUnit "foo" "y/pkg", mkUnit "foo3" "z/pkg"]).bind
          (ResolvePackageConflict (fun _ => 5))).map
      (fun out => out.map (fun u => u.FixImport)) = some [[], str "foo5", str "foo33"]) := by
  decide

end Mad
namespace Mad

/-! ## `path/filepath` -/

theorem takeWhile_seg (s tl : GoString) (hs : 47 ∉ s) (htl : tl = [] ∨ tl.head? = some 47) :
    (s ++ tl).takeWhile (fun x => x ≠ 47) = s := by
  induction s with
  | nil =>
    rcases htl with rfl | h
    · rfl
    · cases tl with
      | nil => rfl
      | cons y ys =>
        simp only [List.head?_cons, Option.some.injEq] at h
        subst h
        simp
  | cons c cs ih =>
    have hc : c ≠ 47 := fun h => hs (h ▸ List.mem_cons_self _ _)
    have hcs : 47 ∉ cs := fun h => hs (List.mem_cons_of_mem _ h)
    have := ih hcs
    rw [List.cons_append, List.takeWhile_cons]
    simp only [ne_eq, hc, not_false_eq_true, decide_True, if_true, this]

theorem dropWhile_seg (s tl : GoString) (hs : 47 ∉ s) (htl : tl = [] ∨ tl.head? = some 47) :
    (s ++ tl).dropWhile (fun x => x ≠ 47) = tl := by
  induction s with
  | nil =>
    rcases htl with rfl | h
    · rfl
    · cases tl with
      | nil => rfl
      | cons y ys =>
        simp only [List.head?_cons, Option.some.injEq] at h
        subst h
        simp
  | cons c cs ih =>
    have hc : c ≠ 47 := fun h => hs (h ▸ List.mem_cons_self _ _)
    have hcs : 47 ∉ cs := fun h => hs (List.mem_cons_of_mem _ h)
    have := ih hcs
    rw [List.cons_append, List.dropWhile_cons]
    simp only [ne_eq, hc, not_false_eq_true, decide_True, if_true, this]

theorem joinSlash_cons (s : GoString) (segs : List GoString) :
    joinSlash (s :: segs) = s ++ (if segs = [] then [] else 47 :: joinSlash segs) := by
  cases segs with
  | nil => simp [joinSlash]
  | cons t ts => simp [joinSlash]

theorem joinSlash_tail_shape (segs : List GoString) :
    (if segs = [] then ([] : GoString) else 47 :: joinSlash segs) = []
      ∨ (if segs = [] then ([] : GoString) else 47 :: joinSlash segs).head? = some 47 := by
  split
  · exact Or.inl rfl
  · exact Or.inr rfl

/-- One turn of the loop of `Clean` on a normal element: the element is
copied to the buffer, after a slash where one is needed. -/
theorem cleanLoop_normal (rooted : Bool) (fuel : Nat) (s tl out : GoString) (dotdot : Nat)
    (hs : NormalSeg s) (htl : tl = [] ∨ tl.head? = some 47) :
    cleanLoop rooted (fuel + 1) (s ++ tl) out dotdot
      = cleanLoop rooted fuel tl
          ((if (rooted ∧ out.length ≠ 1) ∨ (!rooted ∧ out.length ≠ 0) then out ++ [47]
            else out) ++ s) dotdot := by
  obtain ⟨hne, h47, hdot, hdd⟩ := hs
  cases s with
  | nil => exact absurd rfl hne
  | cons c cs =>
    have hc : c ≠ 47 := fun h => h47 (h ▸ List.mem_cons_self _ _)
    have hcs : 47 ∉ cs := fun h => h47 (List.mem_cons_of_mem _ h)
    have htw := takeWhile_seg (c :: cs) tl h47 htl
    have hdw := dropWhile_seg (c :: cs) tl h47 htl
    have h1 : ¬ (c = 46 ∧ (cs ++ tl = [] ∨ (cs ++ tl).head? = some 47)) := by
      rintro ⟨rfl, h⟩
      cases cs with
      | nil => exact hdot rfl
      | cons d ds =>
        rcases h with h | h
        · simp at h
        · simp only [List.cons_append, List.head?_cons, Option.some.injEq] at h
          exact hcs (h ▸ List.mem_cons_self _ _)
    have h2 : ¬ (c = 46 ∧ (cs ++ tl).head? = some 46
        ∧ ((cs ++ tl).tail = [] ∨ (cs ++ tl).tail.head? = some 47)) := by
      rintro ⟨rfl, hh, h⟩
      cases cs with
      | nil =>
        rcases htl with rfl | h'
        · simp at hh
        · simp only [List.nil_append] at hh
          rw [h'] at hh
          simp at hh
      | cons d ds =>
        simp only [List.cons_append, List.head?_cons, Option.some.injEq] at hh
        subst hh
        simp only [List.cons_append, List.tail_cons] at h
        cases ds with
        | nil => exact hdd rfl
        | cons e es =>
          rcases h with h | h
          · simp at h
          · simp only [List.cons_append, List.head?_cons, Option.some.injEq] at h
            exact hcs (h ▸ List.mem_cons_of_mem _ (List.mem_cons_self _ _))
    rw [List.cons_append] at htw hdw ⊢
    rw [cleanLoop]
    simp only [if_neg hc, if_neg h1, if_neg h2, htw, hdw]

end Mad
namespace Mad

theorem cleanLoop_nil (rooted : Bool) (fuel : Nat) (out : GoString) (dotdot : Nat) :
    cleanLoop rooted fuel [] out dotdot = out := by
  cases fuel <;> rfl

theorem joinSlash_length_cons (s : GoString) (segs : List GoString) :
    (joinSlash (s :: segs)).length
      = s.length + (if segs = [] then 0 else 1 + (joinSlash segs).length) := by
  rw [joinSlash_cons, List.length_append]
  split
  · rfl
  · simp only [List.length_cons]; omega

/-- The loop of `Clean` copies a run of normal elements to the buffer as it
stands. -/
theorem cleanLoop_segs (rooted : Bool) (dotdot : Nat) :
    ∀ (segs : List GoString), (∀ s ∈ segs, NormalSeg s) →
      ∀ (fuel : Nat) (out : GoString), (joinSlash segs).length ≤ fuel →
        (rooted = true → 1 ≤ out.length) →
        cleanLoop rooted fuel (joinSlash segs) out dotdot
          = out ++ (if segs = [] then []
              else (if (rooted ∧ out.length ≠ 1) ∨ (!rooted ∧ out.length ≠ 0) then [47]
                else []) ++ joinSlash segs) := by
  intro segs
  induction segs with
  | nil =>
    intro _ fuel out _ _
    simp [joinSlash, cleanLoop_nil]
  | cons s segs ih =>
    intro hn fuel out hfuel hout
    have hs : NormalSeg s := hn s (List.mem_cons_self _ _)
    have hrest : ∀ t ∈ segs, NormalSeg t := fun t ht => hn t (List.mem_cons_of_mem _ ht)
    have hslen : 1 ≤ s.length := by
      cases s with
      | nil => exact absurd rfl hs.1
      | cons _ _ => simp
    rw [joinSlash_length_cons] at hfuel
    cases fuel with
    | zero => omega
    | succ fuel =>
      rw [joinSlash_cons, cleanLoop_normal rooted fuel s _ out dotdot hs
        (joinSlash_tail_shape segs)]
      by_cases hsegs : segs = []
      · subst hsegs
        simp only [if_true, cleanLoop_nil, List.append_nil, List.cons_ne_nil, if_false]
        split <;> simp
      · rw [if_neg hsegs] at hfuel ⊢
        cases fuel with
        | zero => omega
        | succ fuel =>
          rw [cleanLoop]
          simp only [if_true]
          rw [ih hrest fuel _ (by omega) (by intro _; simp only [List.length_append]; omega)]
          rw [if_neg hsegs]
          have hsep : ((rooted = true ∧
              ((if (rooted = true ∧ out.length ≠ 1) ∨ ((!rooted) = true ∧ out.length ≠ 0)
                then out ++ [47] else out) ++ s).length ≠ 1)
              ∨ ((!rooted) = true ∧
              ((if (rooted = true ∧ out.length ≠ 1) ∨ ((!rooted) = true ∧ out.length ≠ 0)
                then out ++ [47] else out) ++ s).length ≠ 0)) := by
            cases rooted with
            | true =>
              left
              refine ⟨rfl, ?_⟩
              have := hout rfl
              simp only [List.length_append]
              split <;> (try simp only [List.length_append, List.length_singleton]) <;> omega
            | false =>
              right
              refine ⟨rfl, ?_⟩
              simp only [List.length_append]
              omega
          rw [if_pos hsep]
          simp only [List.cons_ne_nil, if_false]
          split <;> simp only [List.append_assoc, List.singleton_append, List.nil_append,
            List.cons_append]

theorem Clean_absPath (segs : List GoString) (hn : ∀ s ∈ segs, NormalSeg s) :
    Clean (absPath segs) = absPath segs := by
  have h := cleanLoop_segs true 1 segs hn (joinSlash segs).length.succ [47]
    (Nat.le_succ _) (by intro _; simp)
  simp only [Clean, absPath, List.cons_ne_nil, if_false, List.head?_cons, decide_True,
    if_true, List.tail_cons, List.length_cons]
  rw [h]
  by_cases hsegs : segs = []
  · subst hsegs; simp [joinSlash]
  · simp [hsegs]

end Mad
namespace Mad

theorem joinSlash_ne_nil (s : GoString) (segs : List GoString) (hs : s ≠ []) :
    joinSlash (s :: segs) ≠ [] := by
  rw [joinSlash_cons]
  cases s with
  | nil => exact absurd rfl hs
  | cons c cs => simp

/-- The loop of `Rel` on a base made of the elements `segs` and a target made of
`segs` followed by `rsegs`: it runs through the whole base and leaves the
elements `rsegs` of the target. -/
theorem relLoop_segs (rsegs : List GoString) (hr : rsegs ≠ []) :
    ∀ (segs : List GoString), (∀ s ∈ segs ++ rsegs, s ≠ [] ∧ 47 ∉ s) →
      ∀ (fuel : Nat), (joinSlash segs).length ≤ fuel →
        relLoop fuel (joinSlash segs) (joinSlash (segs ++ rsegs))
          = ([], [], joinSlash rsegs) := by
  intro segs
  induction segs with
  | nil =>
    intro _ fuel _
    cases fuel with
    | zero => rfl
    | succ fuel => simp [relLoop, joinSlash]
  | cons s segs ih =>
    intro hn fuel hfuel
    have hs := hn s (by simp)
    have hrest : ∀ t ∈ segs ++ rsegs, t ≠ [] ∧ 47 ∉ t := fun t ht => hn t (by
      rw [List.cons_append]; exact List.mem_cons_of_mem _ ht)
    have hslen : 1 ≤ s.length := by
      cases s with
      | nil => exact absurd rfl hs.1
      | cons _ _ => simp
    rw [joinSlash_length_cons] at hfuel
    cases fuel with
    | zero => omega
    | succ fuel =>
      have hb := joinSlash_ne_nil s segs hs.1
      have ht := joinSlash_ne_nil s (segs ++ rsegs) hs.1
      have hne : segs ++ rsegs ≠ [] := by simp [hr]
      rw [List.cons_append, relLoop]
      rw [if_neg (by simp [hb, ht])]
      rw [joinSlash_cons s segs, joinSlash_cons s (segs ++ rsegs)]
      rw [takeWhile_seg s _ hs.2 (joinSlash_tail_shape _),
        takeWhile_seg s _ hs.2 (joinSlash_tail_shape _),
        dropWhile_seg s _ hs.2 (joinSlash_tail_shape _),
        dropWhile_seg s _ hs.2 (joinSlash_tail_shape _)]
      rw [if_neg (by simp), if_neg hne]
      have hdrop : (if segs = [] then ([] : GoString) else 47 :: joinSlash segs).drop 1
          = joinSlash segs := by
        split
        · rename_i h; subst h; rfl
        · rfl
      rw [hdrop]
      simp only [List.drop_succ_cons, List.drop_zero]
      apply ih hrest
      split at hfuel <;> rename_i h
      · subst h; simp [joinSlash]
      · omega

theorem absPath_append_ne (segs rsegs : List GoString) (hr : rsegs ≠ [])
    (hn : ∀ s ∈ segs ++ rsegs, s ≠ [] ∧ 47 ∉ s) :
    absPath segs ≠ absPath (segs ++ rsegs) := by
  intro h
  have hlen : (joinSlash segs).length = (joinSlash (segs ++ rsegs)).length := by
    simp only [absPath, List.cons.injEq, true_and] at h
    rw [← h]
  have hlt : ∀ (segs : List GoString), (∀ s ∈ segs ++ rsegs, s ≠ [] ∧ 47 ∉ s) →
      (joinSlash segs).length < (joinSlash (segs ++ rsegs)).length := by
    intro segs
    induction segs with
    | nil =>
      intro hn
      cases rsegs with
      | nil => exact absurd rfl hr
      | cons r rs =>
        have := joinSlash_ne_nil r rs (hn r (by simp)).1
        simp only [joinSlash, List.length_nil, List.nil_append]
        exact List.length_pos.mpr this
    | cons s segs ih =>
      intro hn
      have := ih (fun t ht => hn t (by
        rw [List.cons_append]; exact List.mem_cons_of_mem _ ht))
      have hne : segs ++ rsegs ≠ [] := by simp [hr]
      rw [List.cons_append, joinSlash_length_cons, joinSlash_length_cons, if_neg hne]
      split <;> omega
  have := hlt segs hn
  omega

theorem Rel_absPath (segs rsegs : List GoString) (hr : rsegs ≠ [])
    (hn : ∀ s ∈ segs ++ rsegs, NormalSeg s) :
    Rel (absPath segs) (absPath (segs ++ rsegs)) = .ok (joinSlash rsegs) := by
  have hn1 : ∀ s ∈ segs, NormalSeg s := fun s hs => hn s (List.mem_append_left _ hs)
  have hn2 : ∀ s ∈ segs ++ rsegs, s ≠ [] ∧ 47 ∉ s := fun s hs => ⟨(hn s hs).1, (hn s hs).2.1⟩
  have hne := absPath_append_ne segs rsegs hr hn2
  unfold Rel
  rw [Clean_absPath segs hn1, Clean_absPath (segs ++ rsegs) hn]
  rw [if_neg (fun h => hne h.symm)]
  have hdot : absPath segs ≠ str "." := by simp [absPath, str, encodeRune]
  simp only [if_neg hdot]
  have hloop : relLoop ((absPath segs).length + 1) (absPath segs) (absPath (segs ++ rsegs))
      = ([], [], joinSlash rsegs) := by
    simp only [absPath, List.length_cons]
    rw [relLoop]
    rw [if_neg (by simp)]
    simp only [List.takeWhile_cons, ne_eq, not_true_eq_false, decide_False, if_false,
      List.dropWhile_cons, List.drop_succ_cons, List.drop_zero, Bool.false_eq_true]
    exact relLoop_segs rsegs hr segs hn2 _ (Nat.le_succ _)
  rw [hloop]
  simp [absPath, str, encodeRune]

/-- C8: for a config whose `TestPath` is the clean absolute path with the
elements `segs` and a candidate directory strictly below it, reached through the
elements `rsegs`, `getOutputInfo` succeeds; with `rel` the elements `rsegs`
joined by slashes, `OutputPath` is `Join(cfg.OutputPath, cfg.TestDirName, rel)`,
`RelativePath` is `Join(Base(cfg.TestPath), rel)` and `ImportPath` is
`cfg.GeneratedTestPkg + "/" + rel`. -/
theorem getOutputInfo_below (cfg : Config) (segs rsegs : List GoString)
    (packagename : GoString) (hroot : cfg.TestPath = absPath segs) (hr : rsegs ≠ [])
    (hn : ∀ s ∈ segs ++ rsegs, NormalSeg s) :
    getOutputInfo cfg (absPath (segs ++ rsegs)) packagename
      = .ok { OutputPath := Join [cfg.OutputPath, cfg.TestDirName, joinSlash rsegs],
              RelativePath := Join [Base cfg.TestPath, joinSlash rsegs],
              Package := none,
              FixImport := [],
              ImportPath := cfg.GeneratedTestPkg ++ str "/" ++ joinSlash rsegs } := by
  have hn2 : ∀ s ∈ segs ++ rsegs, s ≠ [] ∧ 47 ∉ s := fun s hs => ⟨(hn s hs).1, (hn s hs).2.1⟩
  unfold getOutputInfo
  rw [hroot, if_neg (absPath_append_ne segs rsegs hr hn2), Rel_absPath segs rsegs hr hn]

/-- The example of the specification: test root `/root/tests`, candidate
`/root/tests/sub/dir`. -/
theorem getOutputInfo_below_witness :
    getOutputInfo
        { TestDirName := str "tests", TestPath := str "/root/tests",
          GeneratedTestPkg := str "github.com/gernest/mad/madness/tests",
          OutputPath := str "/root/madness" }
        (str "/root/tests/sub/dir") (str "pkg")
      = .ok { OutputPath := str "/root/madness/tests/sub/dir",
              RelativePath := str "tests/sub/dir",
              Package := none,
              FixImport := [],
              ImportPath := str "github.com/gernest/mad/madness/tests/sub/dir" } :=
  getOutputInfo_below
    { TestDirName := str "tests", TestPath := str "/root/tests",
      GeneratedTestPkg := str "github.com/gernest/mad/madness/tests",
      OutputPath := str "/root/madness" }
    [str "root", str "tests"] [str "sub", str "dir"] (str "pkg") (by decide) (by decide)
    (by decide)

end Mad
namespace Mad

theorem backtrackTo_ge (out : GoString) (dotdot : Nat) :
    ∀ w, dotdot ≤ w → dotdot ≤ backtrackTo out dotdot w := by
  intro w
  induction w with
  | zero => intro h; simpa [backtrackTo] using h
  | succ w ih =>
    intro h
    rw [backtrackTo]
    split
    · rename_i hc
      exact ih (by omega)
    · exact h

theorem head?_take_pos (out : GoString) (k : Nat) (hk : 1 ≤ k) :
    (out.take k).head? = out.head? := by
  cases out with
  | nil => simp
  | cons x xs =>
    cases k with
    | zero => omega
    | succ k => simp

theorem head?_take_ne (out : GoString) (k : Nat) (h : out.head? ≠ some 47) :
    (out.take k).head? ≠ some 47 := by
  cases k with
  | zero => simp
  | succ k => rw [head?_take_pos out (k + 1) (by omega)]; exact h

theorem head?_append_of_head? (x y : GoString) (h : x.head? = some 47) :
    (x ++ y).head? = some 47 := by
  cases x with
  | nil => simp at h
  | cons a as => simpa using h

/-- The buffer of `Clean` on a rooted path keeps its leading slash. -/
theorem cleanLoop_head_rooted :
    ∀ (fuel : Nat) (path out : GoString) (dotdot : Nat), out.head? = some 47 → 1 ≤ dotdot →
      (cleanLoop true fuel path out dotdot).head? = some 47 := by
  intro fuel
  induction fuel with
  | zero => intro path out dotdot h _; exact h
  | succ fuel ih =>
    intro path out dotdot h hd
    cases path with
    | nil => exact h
    | cons c rest =>
      rw [cleanLoop]
      split
      · exact ih _ _ _ h hd
      · split
        · exact ih _ _ _ h hd
        · split
          · split
            · rename_i hlen
              apply ih _ _ _ _ hd
              rw [head?_take_pos _ _ ?_]
              · exact h
              · exact le_trans hd (backtrackTo_ge out dotdot _ (by omega))
            · split
              · rename_i hr; simp at hr
              · exact ih _ _ _ h hd
          · apply ih _ _ _ _ hd
            apply head?_append_of_head?
            split
            · exact head?_append_of_head? _ _ h
            · exact h

/-- The buffer of `Clean` on a path that is not rooted never starts with a
slash. -/
theorem cleanLoop_head_unrooted :
    ∀ (fuel : Nat) (path out : GoString) (dotdot : Nat), out.head? ≠ some 47 →
      (cleanLoop false fuel path out dotdot).head? ≠ some 47 := by
  intro fuel
  induction fuel with
  | zero => intro path out dotdot h; exact h
  | succ fuel ih =>
    intro path out dotdot h
    cases path with
    | nil => exact h
    | cons c rest =>
      rw [cleanLoop]
      split
      · exact ih _ _ _ h
      · rename_i hc
        split
        · exact ih _ _ _ h
        · split
          · split
            · exact ih _ _ _ (head?_take_ne _ _ h)
            · split
              · apply ih
                cases out with
                | nil => simp
                | cons a as => simpa using h
              · exact ih _ _ _ h
          · apply ih
            cases out with
            | nil => simp [List.takeWhile_cons, hc]
            | cons a as => simpa using h

theorem Clean_head (path : GoString) :
    (Clean path).head? = some 47 ↔ path.head? = some 47 := by
  unfold Clean
  by_cases hp : path = []
  · subst hp; simp [str, encodeRune]
  · rw [if_neg hp]
    by_cases hr : path.head? = some 47
    · simp only [hr, decide_True, if_true, iff_true]
      have := cleanLoop_head_rooted path.length path.tail [47] 1 rfl (le_refl _)
      split
      · rename_i h0
        rw [List.length_eq_zero] at h0
        rw [h0] at this
        simp at this
      · exact this
    · simp only [hr, decide_False, iff_false, Bool.false_eq_true, if_false]
      have := cleanLoop_head_unrooted path.length path [] 0 (by simp)
      by_cases h0 : (cleanLoop false path.length path [] 0).length = 0
      · rw [if_pos h0]; simp [str, encodeRune]
      · rw [if_neg h0]; exact this

theorem Rel_mixed (basepath targpath : GoString)
    (h : (basepath.head? = some 47 ∧ targpath.head? ≠ some 47)
      ∨ (basepath.head? ≠ some 47 ∧ targpath.head? = some 47)) :
    Rel basepath targpath = .error (relError basepath targpath) := by
  have hb := Clean_head basepath
  have ht := Clean_head targpath
  have hne : Clean targpath ≠ Clean basepath := by
    intro heq
    rw [heq] at ht
    rcases h with ⟨h1, h2⟩ | ⟨h1, h2⟩
    · exact h2 (ht.mp (hb.mpr h1))
    · exact h1 (hb.mp (ht.mpr h2))
  have hbase : (if Clean basepath = str "." then ([] : GoString) else Clean basepath).head?
      = some 47 ↔ basepath.head? = some 47 := by
    split
    · rename_i hdot
      rw [hdot] at hb
      rw [← hb]
      simp [str, encodeRune]
    · exact hb
  unfold Rel
  rw [if_neg hne]
  simp only
  rw [if_pos]
  intro heq
  have hiff : basepath.head? = some 47 ↔ targpath.head? = some 47 := by
    rw [← hbase, ← ht, heq]
  rcases h with ⟨h1, h2⟩ | ⟨h1, h2⟩
  · exact h2 (hiff.mp h1)
  · exact h1 (hiff.mpr h2)

/-- C9 fails as stated: against the test root `/root/tests` the sibling directory
`/other/dir`, which does not lie below the root, is accepted: `filepath.Rel`
answers `../../other/dir` without an error and `getOutputInfo` returns a unit
whose paths climb out of the test root. -/
theorem getOutputInfo_outside_ok :
    ¬ (str "/root/tests" <+: str "/other/dir")
    ∧ Rel (str "/root/tests") (str "/other/dir") = .ok (str "../../other/dir")
    ∧ getOutputInfo
        { TestDirName := str "tests", TestPath := str "/root/tests",
          GeneratedTestPkg := str "github.com/gernest/mad/madness/tests",
          OutputPath := str "/root/madness" }
        (str "/other/dir") (str "pkg")
      = .ok { OutputPath := str "/root/other/dir",
              RelativePath := str "../other/dir",
              Package := none,
              FixImport := [],
              ImportPath := str "github.com/gernest/mad/madness/tests/../../other/dir" } := by
  refine ⟨by decide, by decide, by decide⟩

theorem getOutputInfo_mixed (cfg : Config) (testPath packagename : GoString)
    (h : (cfg.TestPath.head? = some 47 ∧ testPath.head? ≠ some 47)
      ∨ (cfg.TestPath.head? ≠ some 47 ∧ testPath.head? = some 47)) :
    getOutputInfo cfg testPath packagename = .error (relError cfg.TestPath testPath) := by
  have hne : cfg.TestPath ≠ testPath := by
    intro heq
    rw [heq] at h
    rcases h with ⟨h1, h2⟩ | ⟨h1, h2⟩
    · exact h2 h1
    · exact h1 h2
  unfold getOutputInfo
  rw [if_neg hne, Rel_mixed cfg.TestPath testPath h]

/-- The element at which the loop of `Rel` stops is empty or one of the elements
of the base. -/
theorem relLoop_fst_mem :
    ∀ (segs : List GoString), (∀ s ∈ segs, s ≠ [] ∧ 47 ∉ s) → ∀ (fuel : Nat) (t : GoString),
      (relLoop fuel (joinSlash segs) t).1 = [] ∨ (relLoop fuel (joinSlash segs) t).1 ∈ segs := by
  intro segs
  induction segs with
  | nil =>
    intro _ fuel t
    left
    cases fuel with
    | zero => rfl
    | succ fuel => simp [relLoop, joinSlash]
  | cons s segs ih =>
    intro hn fuel t
    have hs := hn s (List.mem_cons_self _ _)
    have hrest : ∀ u ∈ segs, u ≠ [] ∧ 47 ∉ u := fun u hu => hn u (List.mem_cons_of_mem _ hu)
    cases fuel with
    | zero => left; rfl
    | succ fuel =>
      rw [relLoop]
      split
      · left; rfl
      · rw [joinSlash_cons, takeWhile_seg s _ hs.2 (joinSlash_tail_shape _),
          dropWhile_seg s _ hs.2 (joinSlash_tail_shape _)]
        split
        · right; exact List.mem_cons_self _ _
        · have hdrop : (if segs = [] then ([] : GoString) else 47 :: joinSlash segs).drop 1
              = joinSlash segs := by
            split
            · rename_i h; subst h; rfl
            · rfl
          rw [hdrop]
          rcases ih hrest fuel _ with h | h
          · left; exact h
          · right; exact List.mem_cons_of_mem _ h

/-- Against a clean absolute base `Rel` accepts every absolute target. -/
theorem Rel_absolute (segs : List GoString) (hn : ∀ s ∈ segs, NormalSeg s)
    (targpath : GoString) (ht : targpath.head? = some 47) :
    ∃ rel, Rel (absPath segs) targpath = .ok rel := by
  have hn2 : ∀ s ∈ segs, s ≠ [] ∧ 47 ∉ s := fun s hs => ⟨(hn s hs).1, (hn s hs).2.1⟩
  have htc : (Clean targpath).head? = some 47 := (Clean_head targpath).mpr ht
  unfold Rel
  rw [Clean_absPath segs hn]
  split
  · exact ⟨_, rfl⟩
  · have hdot : absPath segs ≠ str "." := by simp [absPath, str, encodeRune]
    simp only [if_neg hdot]
    have hhead : ¬ (((absPath segs).head? = some 47) ≠ ((Clean targpath).head? = some 47)) := by
      intro h
      apply h
      rw [htc]
      simp [absPath]
    rw [if_neg hhead]
    have hfst : (relLoop ((absPath segs).length + 1) (absPath segs) (Clean targpath)).1
        ≠ str ".." := by
      obtain ⟨c, cs, hc⟩ : ∃ c cs, Clean targpath = c :: cs := by
        cases h : Clean targpath with
        | nil => rw [h] at htc; simp at htc
        | cons c cs => exact ⟨c, cs, rfl⟩
      rw [hc] at htc ⊢
      simp only [List.head?_cons, Option.some.injEq] at htc
      subst htc
      simp only [absPath, List.length_cons]
      rw [relLoop]
      rw [if_neg (by simp)]
      simp only [List.takeWhile_cons, ne_eq, not_true_eq_false, decide_False, if_false,
        List.dropWhile_cons, List.drop_succ_cons, List.drop_zero, Bool.false_eq_true]
      rcases relLoop_fst_mem segs hn2 ((joinSlash segs).length + 1) cs with h | h
      · rw [h]; simp [str, encodeRune]
      · intro heq
        rw [heq] at h
        exact (hn _ h).2.2.2 rfl
    rw [if_neg hfst]
    split
    · exact ⟨_, rfl⟩
    · exact ⟨_, rfl⟩

/-- C9, amended: for a config whose `TestPath` is a clean absolute path,
`getOutputInfo` fails, with the error of `filepath.Rel` and without a unit, for
every candidate that is not an absolute path, and it returns a unit for every
candidate that is an absolute path, whether or not the candidate lies below the
test root. -/
theorem getOutputInfo_fails_iff (cfg : Config) (segs : List GoString)
    (testPath packagename : GoString) (hroot : cfg.TestPath = absPath segs)
    (hn : ∀ s ∈ segs, NormalSeg s) :
    (testPath.head? ≠ some 47 →
      getOutputInfo cfg testPath packagename = .error (relError cfg.TestPath testPath))
    ∧ (testPath.head? = some 47 →
      ∃ info, getOutputInfo cfg testPath packagename = .ok info) := by
  constructor
  · intro h
    exact getOutputInfo_mixed cfg testPath packagename
      (Or.inl ⟨by rw [hroot]; rfl, h⟩)
  · intro h
    unfold getOutputInfo
    split
    · exact ⟨_, rfl⟩
    · obtain ⟨rel, hrel⟩ := Rel_absolute segs hn testPath h
      rw [hroot, hrel]
      exact ⟨_, rfl⟩

/-- The test root `/root/tests` with the relative candidate `other/dir` and with
the absolute candidate `/other/dir`. -/
theorem getOutputInfo_fails_iff_witness :
    getOutputInfo
        { TestDirName := str "tests", TestPath := str "/root/tests",
          GeneratedTestPkg := str "github.com/gernest/mad/madness/tests",
          OutputPath := str "/root/madness" }
        (str "other/dir") (str "pkg")
      = .error (str "Rel: can't make other/dir relative to /root/tests")
    ∧ ∃ info, getOutputInfo
        { TestDirName := str "tests", TestPath := str "/root/tests",
          GeneratedTestPkg := str "github.com/gernest/mad/madness/tests",
          OutputPath := str "/root/madness" }
        (str "/other/dir") (str "pkg") = .ok info :=
  ⟨(getOutputInfo_fails_iff
      { TestDirName := str "tests", TestPath := str "/root/tests",
        GeneratedTestPkg := str "github.com/gernest/mad/madness/tests",
        OutputPath := str "/root/madness" }
      [str "root", str "tests"] (str "other/dir") (str "pkg") (by decide) (by decide)).1
      (by decide),
   (getOutputInfo_fails_iff
      { TestDirName := str "tests", TestPath := str "/root/tests",
        GeneratedTestPkg := str "github.com/gernest/mad/madness/tests",
        OutputPath := str "/root/madness" }
      [str "root", str "tests"] (str "/other/dir") (str "pkg") (by decide) (by decide)).2
      (by decide)⟩

/-- C10 fails on the code: for the test root itself, `/root/tests`, holding a
package named `foo`, the unit is generated to `/root/madness/foo` while its
`RelativePath` is `tests`: joined to the generation directory `/root/madness`
this is `/root/madness/tests`, not the unit's `OutputPath`. -/
theorem getOutputInfo_root_mismatch :
    getOutputInfo
        { TestDirName := str "tests", TestPath := str "/root/tests",
          GeneratedTestPkg := str "github.com/gernest/mad/madness/tests",
          OutputPath := str "/root/madness" }
        (str "/root/tests") (str "foo")
      = .ok { OutputPath := str "/root/madness/foo",
              RelativePath := str "tests",
              Package := none,
              FixImport := [],
              ImportPath := str "github.com/gernest/mad/madness/tests" }
    ∧ Join [str "/root/madness", str "tests"] = str "/root/madness/tests"
    ∧ Join [str "/root/madness", str "tests"] ≠ str "/root/madness/foo" := by
  refine ⟨by decide, by decide, by decide⟩

end Mad
namespace Mad

/-! ## The order of children -/

theorem calcStats_mk (d : String) (ps : List PassedExpectation) (fs : List FailedExpectation)
    (dur : Int) (cs : List SpecResult) :
    calcStats (.mk d ps fs dur cs)
      = (ps.length + (cs.map (fun c => (calcStats c).1)).sum,
         fs.length + (cs.map (fun c => (calcStats c).2)).sum) := by
  rw [calcStats, calcStatsLoop_eq_sum]

theorem calcStats_permuteAt {ts ts' : SpecResult} (h : PermuteAt ts ts') :
    calcStats ts' = calcStats ts := by
  induction h with
  | root d ps fs dur cs cs' hp =>
    rw [calcStats_mk, calcStats_mk, (hp.map _).sum_eq, (hp.map _).sum_eq]
  | child d ps fs dur l1 l2 c c' _ ih =>
    rw [calcStats_mk, calcStats_mk]
    simp only [List.map_append, List.map_cons, List.sum_append, List.sum_cons, ih]

/-- C13: when `ts'` is `ts` with the `Children` lists of any nodes, at any
depth, put in another order, `calcStats ts' = calcStats ts`. -/
theorem calcStats_permuted (ts ts' : SpecResult) (h : Permuted ts ts') :
    calcStats ts' = calcStats ts := by
  induction h with
  | refl => rfl
  | tail _ hstep ih => rw [calcStats_permuteAt hstep, ih]

/-- A root whose two children are swapped, after the two children of its first
child were swapped. -/
theorem calcStats_permuted_witness :
    calcStats (.mk "root" [⟨"a", 1⟩] [] 9
        [.mk "k2" [] [⟨"x", ["m"]⟩] 2 [],
         .mk "k1" [⟨"b", 1⟩] [] 3 [.mk "g2" [⟨"c", 1⟩] [] 1 [], .mk "g1" [] [⟨"y", []⟩] 1 []]])
      = calcStats (.mk "root" [⟨"a", 1⟩] [] 9
        [.mk "k1" [⟨"b", 1⟩] [] 3 [.mk "g1" [] [⟨"y", []⟩] 1 [], .mk "g2" [⟨"c", 1⟩] [] 1 []],
         .mk "k2" [] [⟨"x", ["m"]⟩] 2 []]) :=
  calcStats_permuted _ _
    (Relation.ReflTransGen.tail
      (Relation.ReflTransGen.single
        (PermuteAt.child "root" [⟨"a", 1⟩] [] 9 []
          [.mk "k2" [] [⟨"x", ["m"]⟩] 2 []]
          (.mk "k1" [⟨"b", 1⟩] [] 3
            [.mk "g1" [] [⟨"y", []⟩] 1 [], .mk "g2" [⟨"c", 1⟩] [] 1 []])
          (.mk "k1" [⟨"b", 1⟩] [] 3
            [.mk "g2" [⟨"c", 1⟩] [] 1 [], .mk "g1" [] [⟨"y", []⟩] 1 []])
          (PermuteAt.root "k1" [⟨"b", 1⟩] [] 3 _ _ (List.Perm.swap _ _ _))))
      (PermuteAt.root "root" [⟨"a", 1⟩] [] 9 _ _ (List.Perm.swap _ _ _)))

/-! ## Nil children -/

mutual
theorem calcStatsPtr_of_hasNil : ∀ ts : SpecResultPtr, hasNil ts = true → calcStatsPtr ts = none
  | .nil, _ => rfl
  | .node _ ps fs _ cs, h => by
    rw [calcStatsPtr]
    exact calcStatsPtrLoop_of_hasNil cs ps.length fs.length (by simpa [hasNil] using h)
theorem calcStatsPtrLoop_of_hasNil : ∀ (cs : List SpecResultPtr) (pass fail : Nat),
    hasNilList cs = true → calcStatsPtrLoop cs pass fail = none
  | [], _, _, h => by simp [hasNilList] at h
  | v :: vs, pass, fail, h => by
    rw [calcStatsPtrLoop]
    cases hv : calcStatsPtr v with
    | none => rfl
    | some pf =>
      have hnv : hasNil v = false := by
        cases hn : hasNil v with
        | false => rfl
        | true => rw [calcStatsPtr_of_hasNil v hn] at hv; simp at hv
      have hvs : hasNilList vs = true := by simpa [hasNilList, hnv] using h
      exact calcStatsPtrLoop_of_hasNil vs _ _ hvs
end

mutual
theorem calcStatsPtr_toPtr : ∀ ts : SpecResult, calcStatsPtr (toPtr ts) = some (calcStats ts)
  | .mk _ ps fs _ cs => by
    rw [toPtr, calcStatsPtr, calcStats]
    exact calcStatsPtrLoop_toPtr cs ps.length fs.length
theorem calcStatsPtrLoop_toPtr : ∀ (cs : List SpecResult) (pass fail : Nat),
    calcStatsPtrLoop (toPtrList cs) pass fail = some (calcStatsLoop cs pass fail)
  | [], _, _ => rfl
  | v :: vs, pass, fail => by
    rw [toPtrList, calcStatsPtrLoop, calcStatsPtr_toPtr v, calcStatsLoop]
    exact calcStatsPtrLoop_toPtr vs _ _
end

mutual
theorem printResultPtr_toPtr : ∀ (ts : SpecResult) (level : Nat),
    printResultPtr (toPtr ts) level = (printResult ts level, true)
  | .mk _ _ _ _ cs, level => by
    rw [toPtr, printResultPtr, printChildrenPtr_toPtr cs level, printResult]
theorem printChildrenPtr_toPtr : ∀ (cs : List SpecResult) (level : Nat),
    printChildrenPtr (toPtrList cs) level = (printChildren cs level, true)
  | [], _ => rfl
  | v :: vs, level => by
    rw [toPtrList, printChildrenPtr, printResultPtr_toPtr v, printChildrenPtr_toPtr vs,
      printChildren]
    rfl
end

/-- On a tree without a nil, `Handle` on pointers does what `Handle` does. -/
theorem HandlePtr_toPtr (r : ResponseHandler) (ts : SpecResult) :
    r.HandlePtr (toPtr ts) = (some (r.Handle ts).1, (r.Handle ts).2) := by
  have hc := calcStatsPtr_toPtr ts
  have hp := printResultPtr_toPtr ts 0
  cases ts with
  | mk d ps fs dur cs =>
    rw [toPtr] at hc hp ⊢
    rw [ResponseHandler.HandlePtr, hc]
    simp only [hp, if_true]
    unfold ResponseHandler.Handle Report
    simp only [SpecResult.Duration, SpecResult.Desc]
    split
    · rfl
    · split <;> rfl

/-- C14: on a tree of pointers with a nil in it, at any depth, `calcStats`
panics instead of returning counts, and `Handle` panics too, having written no
line. -/
theorem calcStatsPtr_nil (r : ResponseHandler) (ts : SpecResultPtr) (h : hasNil ts = true) :
    calcStatsPtr ts = none ∧ r.HandlePtr ts = (none, []) := by
  refine ⟨calcStatsPtr_of_hasNil ts h, ?_⟩
  cases ts with
  | nil => rfl
  | node d ps fs dur cs =>
    rw [ResponseHandler.HandlePtr, calcStatsPtr_of_hasNil _ h]

/-- A root with two passed expectations whose second child is nil, and a root
whose grandchild is nil. -/
theorem calcStatsPtr_nil_witness :
    (calcStatsPtr (.node "root" [⟨"a", 1⟩, ⟨"b", 1⟩] [] 5 [.node "kid" [] [] 1 [], .nil]) = none
      ∧ (New true).HandlePtr
          (.node "root" [⟨"a", 1⟩, ⟨"b", 1⟩] [] 5 [.node "kid" [] [] 1 [], .nil]) = (none, []))
    ∧ (calcStatsPtr (.node "root" [] [] 5 [.node "kid" [⟨"a", 1⟩] [] 1 [.nil]]) = none
      ∧ (New false).HandlePtr (.node "root" [] [] 5 [.node "kid" [⟨"a", 1⟩] [] 1 [.nil]])
          = (none, [])) :=
  ⟨calcStatsPtr_nil (New true) _ (by decide), calcStatsPtr_nil (New false) _ (by decide)⟩

end Mad
namespace Mad

/-! ## The lines of `printResult` -/

theorem ident_eq_spaces (level : Nat) : ident level = spaces (2 * level) := by
  induction level with
  | zero => rfl
  | succ n ih =>
    rw [ident, ih]
    apply String.ext
    simp only [spaces, String.data_append]
    rw [show 2 * (n + 1) = 2 * n + 2 from by omega, List.replicate_add]
    rfl

theorem printFailed_eq (level : Nat) (fs : List FailedExpectation) :
    printFailed level fs = fs.flatMap (fun f =>
      Line.failed (spaces (2 * (level + 1))) f.Desc
        :: f.Messages.map (fun msg => Line.message (spaces (2 * (level + 2))) msg)) := by
  induction fs with
  | nil => rfl
  | cons v vs ih =>
    rw [printFailed, ih, ident_eq_spaces, ident_eq_spaces]
    simp [List.flatMap_cons]

theorem printPassed_eq (level : Nat) (ps : List PassedExpectation) :
    printPassed level ps = ps.map (fun p =>
      Line.passed (spaces (2 * (level + 1))) p.Desc p.Duration) := by
  induction ps with
  | nil => rfl
  | cons v vs ih => rw [printPassed, ih, ident_eq_spaces]; rfl

theorem printChildren_eq (level : Nat) (cs : List SpecResult) :
    printChildren cs level = cs.flatMap (fun c => printResult c (level + 1)) := by
  induction cs with
  | nil => rfl
  | cons v vs ih => rw [printChildren, ih, List.flatMap_cons]

/-- C18: the lines `printResult` writes for a node at depth `d` are the
description line, indented by `2 * d` blanks; for each failed expectation in
stored order a failure-marked line indented by `2 * (d + 1)` blanks followed by
one line per message, in order, indented by `2 * (d + 2)` blanks; for each passed
expectation in stored order a success-marked line indented by `2 * (d + 1)`
blanks; then all the lines of each child in declared order, written at depth
`d + 1`. `Report` writes the root at depth 0. -/
theorem printResult_lines (ts : SpecResult) (d : Nat) :
    printResult ts d
      = Line.desc (spaces (2 * d)) ts.Desc
        :: (ts.FailedExpectations.flatMap (fun f =>
              Line.failed (spaces (2 * (d + 1))) f.Desc
                :: f.Messages.map (fun msg => Line.message (spaces (2 * (d + 2))) msg))
            ++ (ts.PassedExpectations.map (fun p =>
                  Line.passed (spaces (2 * (d + 1))) p.Desc p.Duration)
                ++ ts.Children.flatMap (fun c => printResult c (d + 1))))
    ∧ Report ts = printResult ts 0 := by
  refine ⟨?_, rfl⟩
  cases ts with
  | mk desc ps fs dur cs =>
    rw [printResult, ident_eq_spaces, printFailed_eq, printPassed_eq, printChildren_eq]
    rfl

/-- The text of the lines of a small tree, as `Report` puts them on stdout. -/
theorem Report_example :
    (Report (.mk "root" [⟨"ok", 5⟩] [⟨"bad", ["m1", "m2"]⟩] 9
        [.mk "kid" [⟨"fine", 1⟩] [] 2 []])).map (Line.render (fun n => toString n ++ "ns"))
      = ["root: \n", "  ✖ bad :\n", "    -- m1 \n", "    -- m2 \n", "  ✔ ok  5ns\n",
         "  kid: \n", "    ✔ fine  1ns\n"] := by
  decide

theorem printFailed_counts (level : Nat) (fs : List FailedExpectation) :
    (printFailed level fs).countP Line.isPassed = 0
    ∧ (printFailed level fs).countP Line.isFailed = fs.length
    ∧ (printFailed level fs).length
        = fs.length + (fs.map (fun f => f.Messages.length)).sum := by
  induction fs with
  | nil => exact ⟨rfl, rfl, rfl⟩
  | cons v vs ih =>
    obtain ⟨h1, h2, h3⟩ := ih
    have hm1 : ∀ (ms : List String) (i : String),
        (ms.map (fun msg => Line.message i msg)).countP Line.isPassed = 0 := by
      intro ms i; induction ms with
      | nil => rfl
      | cons m ms ih => simp [List.countP_cons, Line.isPassed]
    have hm2 : ∀ (ms : List String) (i : String),
        (ms.map (fun msg => Line.message i msg)).countP Line.isFailed = 0 := by
      intro ms i; induction ms with
      | nil => rfl
      | cons m ms ih => simp [List.countP_cons, Line.isFailed]
    refine ⟨?_, ?_, ?_⟩
    · rw [printFailed, List.countP_cons, List.countP_append, hm1, h1]
      simp [Line.isPassed]
    · rw [printFailed, List.countP_cons, List.countP_append, hm2, h2]
      simp [Line.isFailed]
    · rw [printFailed, List.length_cons, List.length_append, List.length_map, h3]
      simp only [List.length_cons, List.map_cons, List.sum_cons]
      omega

theorem printPassed_counts (level : Nat) (ps : List PassedExpectation) :
    (printPassed level ps).countP Line.isPassed = ps.length
    ∧ (printPassed level ps).countP Line.isFailed = 0
    ∧ (printPassed level ps).length = ps.length := by
  induction ps with
  | nil => exact ⟨rfl, rfl, rfl⟩
  | cons v vs ih =>
    obtain ⟨h1, h2, h3⟩ := ih
    refine ⟨?_, ?_, ?_⟩
    · rw [printPassed, List.countP_cons, h1]; simp [Line.isPassed]
    · rw [printPassed, List.countP_cons, h2]; simp [Line.isFailed]
    · rw [printPassed, List.length_cons, h3, List.length_cons]

/-- The number of failure messages at the nodes of the list. -/
theorem messages_cons (n : SpecResult) (ns : List SpecResult) :
    ((n :: ns).map (fun n => (n.FailedExpectations.map (fun f => f.Messages.length)).sum)).sum
      = (n.FailedExpectations.map (fun f => f.Messages.length)).sum
        + (ns.map (fun n => (n.FailedExpectations.map (fun f => f.Messages.length)).sum)).sum := by
  rw [List.map_cons, List.sum_cons]

mutual
theorem printResult_counts : ∀ (ts : SpecResult) (level : Nat),
    (printResult ts level).countP Line.isPassed
        = ((nodes ts).map (fun n => n.PassedExpectations.length)).sum
    ∧ (printResult ts level).countP Line.isFailed
        = ((nodes ts).map (fun n => n.FailedExpectations.length)).sum
    ∧ (printResult ts level).length
        = (nodes ts).length + ((nodes ts).map (fun n => n.PassedExpectations.length)).sum
          + ((nodes ts).map (fun n => n.FailedExpectations.length)).sum
          + ((nodes ts).map (fun n =>
              (n.FailedExpectations.map (fun f => f.Messages.length)).sum)).sum
  | .mk d ps fs dur cs, level => by
    obtain ⟨c1, c2, c3⟩ := printChildren_counts cs level
    obtain ⟨f1, f2, f3⟩ := printFailed_counts level fs
    obtain ⟨p1, p2, p3⟩ := printPassed_counts level ps
    refine ⟨?_, ?_, ?_⟩
    · rw [printResult, nodes, List.countP_cons, List.countP_append, List.countP_append,
        f1, p1, c1, List.map_cons, List.sum_cons]
      simp [Line.isPassed, SpecResult.PassedExpectations]
    · rw [printResult, nodes, List.countP_cons, List.countP_append, List.countP_append,
        f2, p2, c2, List.map_cons, List.sum_cons]
      simp [Line.isFailed, SpecResult.FailedExpectations]
    · rw [printResult, nodes, List.length_cons, List.length_append, List.length_append,
        f3, p3, c3, List.length_cons, messages_cons, List.map_cons, List.sum_cons,
        List.map_cons, List.sum_cons]
      simp only [SpecResult.PassedExpectations, SpecResult.FailedExpectations]
      omega
theorem printChildren_counts : ∀ (cs : List SpecResult) (level : Nat),
    (printChildren cs level).countP Line.isPassed
        = ((nodesList cs).map (fun n => n.PassedExpectations.length)).sum
    ∧ (printChildren cs level).countP Line.isFailed
        = ((nodesList cs).map (fun n => n.FailedExpectations.length)).sum
    ∧ (printChildren cs level).length
        = (nodesList cs).length
          + ((nodesList cs).map (fun n => n.PassedExpectations.length)).sum
          + ((nodesList cs).map (fun n => n.FailedExpectations.length)).sum
          + ((nodesList cs).map (fun n =>
              (n.FailedExpectations.map (fun f => f.Messages.length)).sum)).sum
  | [], _ => ⟨rfl, rfl, rfl⟩
  | v :: vs, level => by
    obtain ⟨a1, a2, a3⟩ := printResult_counts v (level + 1)
    obtain ⟨b1, b2, b3⟩ := printChildren_counts vs level
    refine ⟨?_, ?_, ?_⟩
    · rw [printChildren, nodesList, List.countP_append, a1, b1, List.map_append,
        List.sum_append]
    · rw [printChildren, nodesList, List.countP_append, a2, b2, List.map_append,
        List.sum_append]
    · rw [printChildren, nodesList, List.length_append, a3, b3, List.length_append]
      simp only [List.map_append, List.sum_append]
      omega
end

/-- C19: with `calcStats ts = (P, F)`, the lines of `Report ts` hold exactly `P`
success-marked expectation lines and exactly `F` failure-marked expectation
lines, and their number is the number of nodes plus `P` plus `F` plus the number
of failure messages in the tree. -/
theorem Report_counts (ts : SpecResult) :
    (Report ts).countP Line.isPassed = (calcStats ts).1
    ∧ (Report ts).countP Line.isFailed = (calcStats ts).2
    ∧ (Report ts).length
        = (nodes ts).length + (calcStats ts).1 + (calcStats ts).2 + totalMessages ts := by
  obtain ⟨h1, h2, h3⟩ := printResult_counts ts 0
  rw [calcStats_eq_total]
  exact ⟨h1, h2, h3⟩

end Mad
namespace Mad

/-! ## `rename`, case by case -/

/-- C15: when the final segments of `a` and `b` are ASCII and `j` is the first
index at which they differ, `j` lying inside both, `rename pkg a b` is the byte
of the final segment of `b` at index `j`, followed by `pkg`. -/
theorem rename_ascii (r : Fin 10) (pkg a b : GoString) (j : Nat)
    (_ha : ∀ x ∈ leaf a, x < 128) (hb : ∀ x ∈ leaf b, x < 128)
    (h1 : j < (leaf a).length) (h2 : j < (leaf b).length)
    (heq : ∀ i, i < j → (leaf a)[i]? = (leaf b)[i]?)
    (hne : (leaf a)[j]? ≠ (leaf b)[j]?) :
    ∃ c, (leaf b)[j]? = some c ∧ rename r pkg a b = some (c :: pkg) := by
  refine ⟨(leaf b)[j], List.getElem?_eq_getElem h2, ?_⟩
  rw [rename_first_diff r pkg a b j hb h1 h2 (fun i hi => (heq i hi).symm)
    (fun h => hne h.symm), List.getElem?_eq_getElem h2]
  rfl

/-- The segments `pkg1` and `pkg2` differ at index 3 first, where the later one
has the byte `2`. -/
theorem rename_ascii_witness :
    ∃ c, (leaf (str "x/a/pkg2"))[3]? = some c
      ∧ rename 0 (str "foo") (str "x/a/pkg1") (str "x/a/pkg2") = some (c :: str "foo") :=
  rename_ascii 0 (str "foo") (str "x/a/pkg1") (str "x/a/pkg2") 3
    (by decide) (by decide) (by decide) (by decide) (by decide) (by decide)

theorem decimal_digit (r : Fin 10) : decimal r.val = [48 + r.val] := by
  revert r
  decide

/-- C17: when the final segments of `a` and `b` are the same, `rename pkg a b`
is `pkg` followed by one byte, the decimal digit of the number drawn, which lies
between `0` and `9`: the result has one byte more than `pkg` and is not empty. -/
theorem rename_same_leaf (r : Fin 10) (pkg a b : GoString) (h : leaf a = leaf b) :
    rename r pkg a b = some (pkg ++ [48 + r.val])
    ∧ 48 ≤ 48 + r.val ∧ 48 + r.val ≤ 57
    ∧ (pkg ++ [48 + r.val]).length = pkg.length + 1
    ∧ pkg ++ [48 + r.val] ≠ [] := by
  refine ⟨?_, by omega, by omega, by simp, by simp⟩
  unfold rename
  rw [Split_last a, Split_last b]
  simp only [h, ne_eq, not_true_eq_false, if_false, decimal_digit]

/-- Two paths that end in the segment `pkg`, with the digit 7 drawn. -/
theorem rename_same_leaf_witness :
    rename 7 (str "foo") (str "x/a/pkg") (str "y/pkg") = some (str "foo7")
    ∧ 48 ≤ 48 + 7 ∧ 48 + 7 ≤ 57
    ∧ (str "foo" ++ [48 + 7]).length = (str "foo").length + 1
    ∧ str "foo" ++ [48 + 7] ≠ [] :=
  rename_same_leaf 7 (str "foo") (str "x/a/pkg") (str "y/pkg") (by decide)

/-- C20: for every package name and every two import paths, the last piece of
each split exists, no read of `last1[k]` in the loop is out of range, and
`rename` returns a string. -/
theorem rename_in_bounds (r : Fin 10) (pkg a b : GoString) :
    (Split a)[(Split a).length - 1]? = some (leaf a)
    ∧ (Split b)[(Split b).length - 1]? = some (leaf b)
    ∧ (∀ limit, limit.length ≤ (leaf a).length →
        ∃ name, renameLoop pkg (leaf a) (limit.length + 1) 0 limit = some name)
    ∧ ∃ name, rename r pkg a b = some name :=
  ⟨Split_last a, Split_last b,
   fun limit hl => Option.isSome_iff_exists.mp
     (renameLoop_isSome pkg (leaf a) (limit.length + 1) 0 limit (Nat.lt_succ_self _)
       (by omega)),
   Option.isSome_iff_exists.mp (rename_isSome r pkg a b)⟩

/-- The results of `rename` on empty paths, paths without a slash, paths that end
in a slash, and final segments of different lengths in either order. -/
theorem rename_edge_cases :
    rename 4 (str "p") [] [] = some (str "p4")
    ∧ rename 4 (str "p") [] (str "abc") = some []
    ∧ rename 4 (str "p") (str "abc") [] = some []
    ∧ rename 4 (str "p") (str "x/") (str "y/") = some (str "p4")
    ∧ rename 4 (str "p") (str "x/") (str "y/z") = some []
    ∧ rename 4 (str "p") (str "abc") (str "abd") = some (str "dp")
    ∧ rename 4 (str "p") (str "x/ab") (str "x/zbcd") = some (str "zp")
    ∧ rename 4 (str "p") (str "x/abcd") (str "x/az") = some (str "zp")
    ∧ rename 4 (str "p") (str "x/é") (str "x/éa") = some (str "ép") := by
  decide

theorem encodeRune_ne_nil (v : Nat) : encodeRune v ≠ [] := by
  unfold encodeRune
  split_ifs <;> simp

theorem renameLoop_shape (pkg last1 : GoString) :
    ∀ (fuel k : Nat) (rest name : GoString),
      renameLoop pkg last1 fuel k rest = some name → name = [] ∨ pkg.length < name.length := by
  intro fuel
  induction fuel with
  | zero => intro k rest name h; simp [renameLoop] at h
  | succ fuel ih =>
    intro k rest name h
    cases rest with
    | nil =>
      simp only [renameLoop, Option.some.injEq] at h
      exact Or.inl h.symm
    | cons x xs =>
      simp only [renameLoop] at h
      cases he : last1[k]? with
      | none => rw [he] at h; simp at h
      | some e =>
        rw [he] at h
        simp only at h
        split at h
        · simp only [Option.some.injEq] at h
          right
          rw [← h, List.length_append]
          have := List.length_pos.mpr (encodeRune_ne_nil (decodeRune (x :: xs)).1)
          omega
        · exact ih _ _ _ h

/-- An alias is never the package name it was made for, unless that name is
empty. -/
theorem rename_ne_pkg (r : Fin 10) (pkg a b name : GoString) (hp : pkg ≠ [])
    (h : rename r pkg a b = some name) : name ≠ pkg := by
  unfold rename at h
  rw [Split_last a, Split_last b] at h
  simp only at h
  split at h
  · rcases renameLoop_shape pkg _ _ _ _ _ h with h0 | hlt
    · rw [h0]; exact fun h => hp h.symm
    · intro heq; rw [heq] at hlt; omega
  · simp only [Option.some.injEq] at h
    intro heq
    rw [← h] at heq
    have := congrArg List.length heq
    simp only [List.length_append, decimal_digit, List.length_singleton] at this
    omega

/-- C16 fails as stated: of three units named `foo` with the leaves `ab`, `xc`
and `xd`, the third gets the alias `xfoo`, which is what the comparison with the
first unit gives; the comparison with the second unit would give `dfoo`. -/
theorem ResolvePackageConflict_third_not_second :
    (ResolvePackageConflict (fun _ => 0)
        [mkUnit "foo" "x/ab", mkUnit "foo" "x/xc", mkUnit "foo" "x/xd"]).map
      (fun out => out.map (fun u => u.FixImport)) = some [[], str "xfoo", str "xfoo"]
    ∧ rename 0 (str "foo") (str "x/ab") (str "x/xd") = some (str "xfoo")
    ∧ rename 0 (str "foo") (str "x/xc") (str "x/xd") = some (str "dfoo") := by
  decide

/-- C16, amended: a unit `v` is compared with the unit `n` that was registered
last under the declared name `q` of `v`. Here `n` comes before `v`, no unit left
between the two has the alias `q`, and `n` is registered under `q`: either it
bears the name `q`, as the first unit of the list to do so, and no unit left
before it has the alias `q`, or the run gave it the alias `q`. Then the alias of
`v` is what `rename` gives against the import path of `n`. So of three units
with one name the third, like the second, is compared with the first, and a
unit named like the alias of the second is compared with the second. -/
theorem ResolvePackageConflict_compared (rnd : Nat → Fin 10) (pre mid rest : List Info)
    (n v : Info) (q : GoString)
    (hpkg : ∀ u ∈ pre ++ n :: (mid ++ v :: rest), u.Package ≠ none)
    (hv : v.declName = some q) :
    (∃ out, ResolvePackageConflict rnd (pre ++ n :: (mid ++ v :: rest)) = some out)
    ∧ ∀ (outPre : List Info) (outN : Info) (outMid : List Info) (outV : Info)
        (outRest : List Info),
        ResolvePackageConflict rnd (pre ++ n :: (mid ++ v :: rest))
          = some (outPre ++ outN :: (outMid ++ outV :: outRest)) →
        outPre.length = pre.length → outMid.length = mid.length →
        (∀ o ∈ outMid, o.FixImport ≠ q) →
        ((n.declName = some q ∧ (∀ u ∈ pre, u.declName ≠ some q)
            ∧ ∀ o ∈ outPre, o.FixImport ≠ q)
          ∨ (outN.FixImport = q ∧ n.FixImport ≠ q)) →
        ∃ a, rename (rnd (pre.length + 1 + mid.length)) q n.ImportPath v.ImportPath = some a
          ∧ outV = { v with FixImport := a } := by
  refine ⟨Option.isSome_iff_exists.mp (resolveLoop_isSome rnd _ [] 0 hpkg), ?_⟩
  intro outPre outN outMid outV outRest hrun hlenPre hlenMid hmid hreg
  unfold ResolvePackageConflict at hrun
  obtain ⟨oS, oC, m1, hsplit1, hlen1, hcont1, hkeep1⟩ :=
    resolveLoop_segment rnd pre _ [] 0 _ hrun
  obtain ⟨rfl, rfl⟩ := List.append_inj hsplit1 (by rw [hlenPre, hlen1])
  obtain ⟨o, outT, m2, hsplit2, hT, p, hp, hstepN⟩ := resolveLoop_cons rnd n _ m1 _ _ hcont1
  obtain ⟨rfl, rfl⟩ := List.cons.inj hsplit2
  obtain ⟨oS2, oC2, m3, hsplit3, hlen3, hcont3, hkeep3⟩ :=
    resolveLoop_segment rnd mid _ m2 _ _ hT
  obtain ⟨rfl, rfl⟩ := List.append_inj hsplit3 (by rw [hlenMid, hlen3])
  obtain ⟨o', outT', m4, hsplit4, _, pv, hpv, hstepV⟩ := resolveLoop_cons rnd v _ m3 _ _ hcont3
  obtain ⟨rfl, rfl⟩ := List.cons.inj hsplit4
  have hpvq : pv.Name = q := by
    simpa [Info.declName, hpv] using hv
  -- the entry of `q` after the turn of `n`
  have hm2 : ∃ x, List.lookup q m2 = some x ∧ x.ImportPath = n.ImportPath := by
    rcases hreg with ⟨hnq, hfirst, hnoalias⟩ | ⟨hout, hin⟩
    · have hpq : p.Name = q := by simpa [Info.declName, hp] using hnq
      have hnone : List.lookup q m1 = none := by
        rw [hkeep1 q hnoalias (Or.inr hfirst)]; rfl
      rcases hstepN with ⟨_, _, rfl⟩ | ⟨x, a, hlk, _, _, _⟩
      · exact ⟨n, by rw [hpq]; exact lookup_cons_self _ _ _, rfl⟩
      · rw [hpq, hnone] at hlk; simp at hlk
    · rcases hstepN with ⟨_, rfl, _⟩ | ⟨x, a, _, _, rfl, rfl⟩
      · exact absurd hout hin
      · simp only at hout
        subst hout
        exact ⟨_, lookup_cons_self _ _ _, rfl⟩
  obtain ⟨x, hx, hxip⟩ := hm2
  have hm3 : List.lookup q m3 = some x := by
    rw [hkeep3 q hmid (Or.inl (by rw [hx]; rfl)), hx]
  rcases hstepV with ⟨hlk, _, _⟩ | ⟨y, a, hlk, hrn, rfl, _⟩
  · rw [hpvq, hm3] at hlk; simp at hlk
  · rw [hpvq, hm3] at hlk
    simp only [Option.some.injEq] at hlk
    subst hlk
    refine ⟨a, ?_, rfl⟩
    rw [hpvq, hxip] at hrn
    simpa only [Nat.zero_add] using hrn

/-- Two lists: a unit named `bar` and three units named `foo`, where the third
`foo` is compared with the first; and two units named `foo` followed by a unit
named `bfoo`, the alias of the second, which is compared with the second. -/
theorem ResolvePackageConflict_compared_witness :
    (∃ a, rename 0 (str "foo") (str "x/ab") (str "x/xd") = some a
      ∧ ({ mkUnit "foo" "x/xd" with FixImport := str "xfoo" } : Info)
          = { mkUnit "foo" "x/xd" with FixImport := a })
    ∧ (∃ a, rename 0 (str "bfoo") (str "x/b") (str "x/c") = some a
      ∧ ({ mkUnit "bfoo" "x/c" with FixImport := str "cbfoo" } : Info)
          = { mkUnit "bfoo" "x/c" with FixImport := a }) :=
  ⟨(ResolvePackageConflict_compared (fun _ => 0) [mkUnit "bar" "x/y"]
      [mkUnit "foo" "x/xc"] [] (mkUnit "foo" "x/ab") (mkUnit "foo" "x/xd") (str "foo")
      (by decide) (by decide)).2
      [mkUnit "bar" "x/y"] (mkUnit "foo" "x/ab")
      [{ mkUnit "foo" "x/xc" with FixImport := str "xfoo" }]
      { mkUnit "foo" "x/xd" with FixImport := str "xfoo" } []
      (by decide) (by decide) (by decide) (by decide) (Or.inl (by decide)),
   (ResolvePackageConflict_compared (fun _ => 0) [mkUnit "foo" "x/a"]
      [] [] (mkUnit "foo" "x/b") (mkUnit "bfoo" "x/c") (str "bfoo")
      (by decide) (by decide)).2
      [mkUnit "foo" "x/a"] { mkUnit "foo" "x/b" with FixImport := str "bfoo" } []
      { mkUnit "bfoo" "x/c" with FixImport := str "cbfoo" } []
      (by decide) (by decide) (by decide) (by decide) (Or.inr (by decide))⟩

/-- The second list of the witness after the run: the unit named `bfoo` finds
the second unit, registered under its alias `bfoo`, and becomes `cbfoo`. -/
theorem ResolvePackageConflict_alias_registered :
    (ResolvePackageConflict (fun _ => 0)
        [mkUnit "foo" "x/a", mkUnit "foo" "x/b", mkUnit "bfoo" "x/c"]).map
      (fun out => out.map (fun u => u.FixImport)) = some [[], str "bfoo", str "cbfoo"] := by
  decide

end Mad
namespace Mad

/-! ## Discovery -/

theorem loadLoop_eq (importDir : GoString → Except GoString BuildPackage) (cfg : Config) :
    ∀ (vs : List GoString) (testInfo : List Info),
      loadLoop importDir cfg vs testInfo
        = testInfo ++ vs.filterMap (fun v => (OutputInfo importDir cfg v).toOption) := by
  intro vs
  induction vs with
  | nil => intro testInfo; simp [loadLoop]
  | cons v vs ih =>
    intro testInfo
    rw [loadLoop]
    cases h : OutputInfo importDir cfg v with
    | error e => simp [ih, List.filterMap_cons, h, Except.toOption]
    | ok i => simp [ih, List.filterMap_cons, h, Except.toOption]

theorem walkTestDirs_paths :
    ∀ (walk : List WalkEntry) (testDirs : List GoString),
      ∀ v ∈ (walkTestDirs walk testDirs).1, v ∈ testDirs ∨ ∃ e ∈ walk, e.path = v := by
  intro walk
  induction walk with
  | nil => intro testDirs v hv; exact Or.inl hv
  | cons e es ih =>
    intro testDirs v hv
    rw [walkTestDirs] at hv
    cases he : e.err with
    | some err => rw [he] at hv; exact Or.inl hv
    | none =>
      rw [he] at hv
      simp only at hv
      split at hv
      · rcases ih _ v hv with h | ⟨e', he', hp⟩
        · rcases List.mem_append.mp h with h | h
          · exact Or.inl h
          · simp only [List.mem_singleton] at h
            exact Or.inr ⟨e, List.mem_cons_self _ _, h.symm⟩
        · exact Or.inr ⟨e', List.mem_cons_of_mem _ he', hp⟩
      · rcases ih _ v hv with h | ⟨e', he', hp⟩
        · exact Or.inl h
        · exact Or.inr ⟨e', List.mem_cons_of_mem _ he', hp⟩

/-- Under a clean absolute test root `getOutputInfo` accepts every absolute
path. -/
theorem getOutputInfo_absolute (cfg : Config) (segs : List GoString)
    (hroot : cfg.TestPath = absPath segs) (hn : ∀ s ∈ segs, NormalSeg s)
    (testPath packagename : GoString) (h : testPath.head? = some 47) :
    ∃ info, getOutputInfo cfg testPath packagename = .ok info := by
  unfold getOutputInfo
  split
  · exact ⟨_, rfl⟩
  · obtain ⟨rel, hrel⟩ := Rel_absolute segs hn testPath h
    rw [hroot, hrel]
    exact ⟨_, rfl⟩

theorem OutputInfo_of_package (importDir : GoString → Except GoString BuildPackage)
    (cfg : Config) (segs : List GoString) (hroot : cfg.TestPath = absPath segs)
    (hn : ∀ s ∈ segs, NormalSeg s) (v : GoString) (h : v.head? = some 47)
    (p : BuildPackage) (hp : importDir v = .ok p) :
    ∃ u, OutputInfo importDir cfg v = .ok u ∧ u.Package = some p := by
  obtain ⟨i, hi⟩ := getOutputInfo_absolute cfg segs hroot hn v p.Name h
  exact ⟨{ i with Package := some p }, by simp only [OutputInfo, hp, hi], rfl⟩

theorem OutputInfo_of_not_package (importDir : GoString → Except GoString BuildPackage)
    (cfg : Config) (v : GoString) (h : isPackage importDir v = false) :
    (OutputInfo importDir cfg v).toOption = none := by
  unfold isPackage at h
  unfold OutputInfo
  cases hv : importDir v with
  | ok p => rw [hv] at h; simp at h
  | error e => rfl

/-- The units the loop of `Load` collects: one for each directory that is a
package, in the order of the directories. -/
theorem loadLoop_units (importDir : GoString → Except GoString BuildPackage)
    (cfg : Config) (segs : List GoString) (hroot : cfg.TestPath = absPath segs)
    (hn : ∀ s ∈ segs, NormalSeg s) :
    ∀ (dirs : List GoString), (∀ v ∈ dirs, v.head? = some 47) →
      List.Forall₂
        (fun v u => ∃ p, importDir v = .ok p ∧ u.Package = some p
          ∧ OutputInfo importDir cfg v = .ok u)
        (dirs.filter (isPackage importDir))
        (dirs.filterMap (fun v => (OutputInfo importDir cfg v).toOption)) := by
  intro dirs
  induction dirs with
  | nil => intro _; exact List.Forall₂.nil
  | cons v vs ih =>
    intro habs
    have hrest := ih (fun w hw => habs w (List.mem_cons_of_mem _ hw))
    cases hv : isPackage importDir v with
    | false =>
      rw [List.filter_cons, hv, List.filterMap_cons,
        OutputInfo_of_not_package importDir cfg v hv]
      exact hrest
    | true =>
      obtain ⟨p, hp⟩ : ∃ p, importDir v = .ok p := by
        unfold isPackage at hv
        cases h : importDir v with
        | ok p => exact ⟨p, rfl⟩
        | error e => rw [h] at hv; simp at hv
      obtain ⟨u, hu, hup⟩ := OutputInfo_of_package importDir cfg segs hroot hn v
        (habs v (List.mem_cons_self _ _)) p hp
      rw [List.filter_cons, hv, List.filterMap_cons, hu]
      exact List.Forall₂.cons ⟨p, hp, hup, hu⟩ hrest

/-- C11: with a clean absolute test root and a walk that hands out absolute
paths, `Load` fails with the error that no test packages were found exactly when
none of the directories visited is a package; when one of them is a package,
`Load` succeeds, whatever the other directories are, and the unit list holds one
unit for each directory that is a package, in the order of the walk. -/
theorem Load_discovery (importDir : GoString → Except GoString BuildPackage)
    (cfg : Config) (segs : List GoString) (walk : List WalkEntry)
    (hroot : cfg.TestPath = absPath segs) (hn : ∀ s ∈ segs, NormalSeg s)
    (habs : ∀ e ∈ walk, e.path.head? = some 47) :
    (Load importDir cfg walk = .error (noTestPackages (walkTestDirs walk []).1)
      ↔ ∀ v ∈ (walkTestDirs walk []).1, isPackage importDir v = false)
    ∧ ((∃ v ∈ (walkTestDirs walk []).1, isPackage importDir v = true) →
      ∃ units, Load importDir cfg walk = .ok units
        ∧ List.Forall₂
            (fun v u => ∃ p, importDir v = .ok p ∧ u.Package = some p
              ∧ OutputInfo importDir cfg v = .ok u)
            ((walkTestDirs walk []).1.filter (isPackage importDir)) units) := by
  have hdirs : ∀ v ∈ (walkTestDirs walk []).1, v.head? = some 47 := by
    intro v hv
    rcases walkTestDirs_paths walk [] v hv with h | ⟨e, he, hp⟩
    · exact absurd h (List.not_mem_nil _)
    · rw [← hp]; exact habs e he
  have hunits := loadLoop_units importDir cfg segs hroot hn _ hdirs
  have hlen := hunits.length_eq
  have hnone : (∀ v ∈ (walkTestDirs walk []).1, isPackage importDir v = false)
      ↔ ((walkTestDirs walk []).1.filter (isPackage importDir)).length = 0 := by
    rw [List.length_eq_zero, List.filter_eq_nil_iff]
    simp
  unfold Load
  rw [loadLoop_eq, List.nil_append]
  constructor
  · rw [hnone, hlen]
    constructor
    · intro h
      split at h
      · assumption
      · simp at h
    · intro h
      rw [if_pos h]
  · rintro ⟨v, hv, hp⟩
    have hpos : ¬ ((walkTestDirs walk []).1.filterMap
        (fun v => (OutputInfo importDir cfg v).toOption)).length = 0 := by
      rw [← hlen, ← hnone]
      intro h
      rw [h v hv] at hp
      simp at hp
    rw [if_neg hpos]
    exact ⟨_, rfl, hunits⟩

/-- A walk over the test root, which is no package, two package directories and
a file between them. -/
theorem Load_discovery_witness :
    ∃ units,
      Load (importDirOf [("/root/tests/a", "a"), ("/root/tests/b", "b")]) exampleConfig
          [⟨str "/root/tests", true, none⟩, ⟨str "/root/tests/a", true, none⟩,
           ⟨str "/root/tests/a/a.go", false, none⟩, ⟨str "/root/tests/b", true, none⟩]
        = .ok units
      ∧ List.Forall₂
          (fun v u => ∃ p,
            importDirOf [("/root/tests/a", "a"), ("/root/tests/b", "b")] v = .ok p
            ∧ u.Package = some p
            ∧ OutputInfo (importDirOf [("/root/tests/a", "a"), ("/root/tests/b", "b")])
                exampleConfig v = .ok u)
          ((walkTestDirs
              [⟨str "/root/tests", true, none⟩, ⟨str "/root/tests/a", true, none⟩,
               ⟨str "/root/tests/a/a.go", false, none⟩, ⟨str "/root/tests/b", true, none⟩]
              []).1.filter
            (isPackage (importDirOf [("/root/tests/a", "a"), ("/root/tests/b", "b")])))
          units :=
  (Load_discovery (importDirOf [("/root/tests/a", "a"), ("/root/tests/b", "b")])
    exampleConfig [str "root", str "tests"]
    [⟨str "/root/tests", true, none⟩, ⟨str "/root/tests/a", true, none⟩,
     ⟨str "/root/tests/a/a.go", false, none⟩, ⟨str "/root/tests/b", true, none⟩]
    (by decide) (by decide) (by decide)).2
    ⟨str "/root/tests/a", by decide, by decide⟩

set_option maxRecDepth 4000 in
/-- The walk of the witness, evaluated: two units, in the order of the walk, and
the error when the two directories are no packages. -/
theorem Load_example :
    (Load (importDirOf [("/root/tests/a", "a"), ("/root/tests/b", "b")]) exampleConfig
        [⟨str "/root/tests", true, none⟩, ⟨str "/root/tests/a", true, none⟩,
         ⟨str "/root/tests/a/a.go", false, none⟩, ⟨str "/root/tests/b", true, none⟩]
      = .ok [⟨str "/root/madness/tests/a", str "tests/a", some ⟨str "a"⟩, [],
              str "github.com/gernest/mad/madness/tests/a"⟩,
             ⟨str "/root/madness/tests/b", str "tests/b", some ⟨str "b"⟩, [],
              str "github.com/gernest/mad/madness/tests/b"⟩])
    ∧ Load (importDirOf []) exampleConfig
        [⟨str "/root/tests", true, none⟩, ⟨str "/root/tests/a", true, none⟩]
      = .error (str ("couldn't find test packages in any on the directories :"
          ++ "[/root/tests /root/tests/a]")) := by
  decide

/-- C12 fails on the code: the walk visits the test root, which is a package,
and then reports an I/O error on `/root/tests/sub`. Walk returns the error, but
`Load` does not look at what Walk returns: it goes on with the directory visited
before the error and succeeds with one unit. -/
theorem Load_ignores_walk_error :
    walkTestDirs
        [⟨str "/root/tests", true, none⟩,
         ⟨str "/root/tests/sub", true, some (str "open /root/tests/sub: permission denied")⟩,
         ⟨str "/root/tests/z", true, none⟩] []
      = ([str "/root/tests"], some (str "open /root/tests/sub: permission denied"))
    ∧ Load (importDirOf [("/root/tests", "tests"), ("/root/tests/z", "z")]) exampleConfig
        [⟨str "/root/tests", true, none⟩,
         ⟨str "/root/tests/sub", true, some (str "open /root/tests/sub: permission denied")⟩,
         ⟨str "/root/tests/z", true, none⟩]
      = .ok [⟨str "/root/madness/tests", str "tests", some ⟨str "tests"⟩, [],
              str "github.com/gernest/mad/madness/tests"⟩] := by
  decide

end Mad
